import Mathlib

/-!
# Ring-Buffer: a shallow embedding of `ringbuffer.h` / `ringbuffer.cpp`

The control block and the slot array are modelled as explicit state.  A C
function that mutates `*buffer` becomes a function returning the new state;
an out-parameter (`char *data`, `char *dst`) is passed in and returned.

Machine integers: `ring_buffer_size_t` is `size_t`, taken to be 64 bits wide
(LP64).  `TRUE_MODULO` casts the unsigned index difference to `int64_t` and
then tests the remainder for being negative, which can only happen when
`size_t` has 64 bits.  Unsigned arithmetic is `Nat` arithmetic reduced modulo
`2 ^ 64` wherever the C expression can wrap; the `int64_t` casts are two's
complement.  `char` values are plain numbers: the engine only moves them.

Undefined behaviour (an access outside an array, a division by zero) and the
busy-wait that never ends are results of their own, see `Fault`.
-/

namespace RingBuffer

/-! ## Machine model -/

/-- Number of values of `size_t` (64-bit). -/
def SIZE_MOD : Nat := 2 ^ 64

/-- Number of values of `uint32_t`. -/
def U32_MOD : Nat := 2 ^ 32

/-- Ways in which a call does not produce a result. -/
inductive Fault where
  /-- `assert` failed. -/
  | assert_failed
  /-- integer division or remainder by zero. -/
  | div_by_zero
  /-- signed arithmetic left the range of `int64_t`. -/
  | signed_overflow
  /-- a load or store outside the addressed array. -/
  | out_of_bounds
  /-- the polling loop of `ring_buffer_read_memload_wait` never ends (nothing
  else runs in this sequential model, so its condition cannot change). -/
  | spins
  deriving DecidableEq, Repr

deriving instance DecidableEq for Except

/-- Outcome of a call: a value or a fault. -/
abbrev Result (α : Type) := Except Fault α

/-- Unsigned `a + b` on `size_t`. -/
def size_add (a b : Nat) : Nat := (a + b) % SIZE_MOD

/-- Unsigned `a - b` on `size_t` (wraps below zero). -/
def size_sub (a b : Nat) : Nat := (a % SIZE_MOD + (SIZE_MOD - b % SIZE_MOD)) % SIZE_MOD

/-- The cast `(int64_t) x` of a `size_t` value. -/
def to_int64 (x : Nat) : Int :=
  if x % SIZE_MOD < 2 ^ 63 then ((x % SIZE_MOD : Nat) : Int)
  else ((x % SIZE_MOD : Nat) : Int) - (2 : Int) ^ 64

/-- The conversion of an `int64_t` value back to `size_t`. -/
def of_int64 (x : Int) : Nat := (x % (2 : Int) ^ 64).toNat

/-- A read `mem[i]`. -/
def load (mem : List Nat) (i : Nat) : Result Nat :=
  if h : i < mem.length then .ok (mem.get ⟨i, h⟩) else .error .out_of_bounds

/-- A write `mem[i] = v`. -/
def store (mem : List Nat) (i : Nat) (v : Nat) : Result (List Nat) :=
  if i < mem.length then .ok (mem.set i v) else .error .out_of_bounds

/-- The call `memcpy(dst + doff, src + soff, n)` between two distinct arrays. -/
def memcpy (dst : List Nat) (doff : Nat) (src : List Nat) (soff : Nat) (n : Nat) :
    Result (List Nat) :=
  if doff + n ≤ dst.length ∧ soff + n ≤ src.length then
    .ok (dst.take doff ++ (src.drop soff).take n ++ dst.drop (doff + n))
  else .error .out_of_bounds

/-- The call `memset(mem, v, n)`. -/
def memset (mem : List Nat) (v : Nat) (n : Nat) : Result (List Nat) :=
  if n ≤ mem.length then .ok (List.replicate n v ++ mem.drop n) else .error .out_of_bounds

/-! ## Data model (`ringbuffer.h`) -/

/-- The control block `ring_buffer_ctrl_t`. -/
structure ring_buffer_ctrl_t where
  /-- status in the low byte, pattern in the high byte (`uint32_t`). -/
  buffer_ctrl : Nat
  /-- buffer mask. -/
  buffer_mask : Nat
  /-- index of tail. -/
  tail_index : Nat
  /-- index of head. -/
  head_index : Nat
  deriving DecidableEq, Repr

/-- The handle `ring_buffer_t`: the control block and the slot array that
`buffer` points to. -/
structure ring_buffer_t where
  ctrl : ring_buffer_ctrl_t
  buffer : List Nat
  deriving DecidableEq, Repr

/-- `RING_BUFFER_IS_POWER_OF_TWO(buffer_size)`, on `size_t`. -/
def RING_BUFFER_IS_POWER_OF_TWO (buffer_size : Nat) : Bool :=
  (buffer_size &&& size_sub buffer_size 1) == 0

/-- `RING_BUFFER_MASK(rb)`. -/
def RING_BUFFER_MASK (rb : ring_buffer_t) : Nat := rb.ctrl.buffer_mask

/-- `RING_BUFFER_CTRL_SET_PATTERN(rb, pattern)`: the comma expression
`ctrl &= 0xFF000000U, ctrl |= ((uint8_t)(pattern) << 24)`. -/
def RING_BUFFER_CTRL_SET_PATTERN (rb : ring_buffer_t) (pattern : Nat) : ring_buffer_t :=
  let c1 := rb.ctrl.buffer_ctrl &&& 0xFF000000
  let c2 := c1 ||| (((pattern % 256) <<< 24) % U32_MOD)
  { rb with ctrl := { rb.ctrl with buffer_ctrl := c2 } }

/-- `RING_BUFFER_CTRL_GET_PATTERN(rb)`. -/
def RING_BUFFER_CTRL_GET_PATTERN (rb : ring_buffer_t) : Nat :=
  ((rb.ctrl.buffer_ctrl >>> 24) &&& 0xFF) % 256

/-- `RING_BUFFER_CTRL_SET_STATUS(rb, value)`: `~0xFF` is `0xFFFFFF00` on 32 bits. -/
def RING_BUFFER_CTRL_SET_STATUS (rb : ring_buffer_t) (value : Nat) : ring_buffer_t :=
  { rb with ctrl := { rb.ctrl with
      buffer_ctrl := ((rb.ctrl.buffer_ctrl &&& 0xFFFFFF00) ||| (value &&& 0xFF)) % U32_MOD } }

/-- `RING_BUFFER_CTRL_GET_STATUS(rb)`. -/
def RING_BUFFER_CTRL_GET_STATUS (rb : ring_buffer_t) : Nat :=
  (rb.ctrl.buffer_ctrl % 256) &&& 0xFF

/-- `RING_BUFFER_DEINIT_STATUS`. -/
def RING_BUFFER_DEINIT_STATUS : Nat := 0x2

/-- `RING_BUFFER_INIT_STATUS`. -/
def RING_BUFFER_INIT_STATUS : Nat := 0x1

/-- The statement expression `TRUE_MODULO(dividend, divisor)`: both operands
are cast to `int64_t`, `%` is the truncating remainder of C, and a negative
remainder is shifted up by `|divisor|`. -/
def TRUE_MODULO (dividend divisor : Nat) : Result Int :=
  let _dividend : Int := to_int64 dividend
  let _divisor : Int := to_int64 divisor
  if _divisor = 0 then .error .div_by_zero
  else if _dividend = -(2 : Int) ^ 63 ∧ _divisor = -1 then .error .signed_overflow
  else
    let _result : Int := Int.tmod _dividend _divisor
    if _result < 0 then
      if _divisor > 0 then .ok (_result + _divisor)
      else if _divisor = -(2 : Int) ^ 63 then .error .signed_overflow
      else .ok (_result + -_divisor)
    else .ok _result

/-- `ring_buffer_is_empty`. -/
def ring_buffer_is_empty (buffer : ring_buffer_t) : Bool :=
  buffer.ctrl.head_index == buffer.ctrl.tail_index

/-- `ring_buffer_is_full`. -/
def ring_buffer_is_full (buffer : ring_buffer_t) : Bool :=
  (size_sub buffer.ctrl.head_index buffer.ctrl.tail_index &&& RING_BUFFER_MASK buffer)
    == RING_BUFFER_MASK buffer

/-- `ring_buffer_num_items`: note that the divisor handed to `TRUE_MODULO` is
the mask itself. -/
def ring_buffer_num_items (buffer : ring_buffer_t) : Result Nat := do
  let r ← TRUE_MODULO (size_sub buffer.ctrl.head_index buffer.ctrl.tail_index)
    (RING_BUFFER_MASK buffer)
  pure (of_int64 r)

/-! ## Operations (`ringbuffer.cpp`) -/

/-- `ring_buffer_init`: the slot array itself is not touched. -/
def ring_buffer_init (buffer : ring_buffer_t) (buf_size : Nat) (pattern : Nat) :
    Result ring_buffer_t :=
  if RING_BUFFER_IS_POWER_OF_TWO buf_size = true then
    let b1 : ring_buffer_t :=
      { buffer with ctrl := { buffer.ctrl with buffer_mask := size_sub buf_size 1 } }
    let b2 : ring_buffer_t := { b1 with ctrl := { b1.ctrl with tail_index := 0 } }
    let b3 : ring_buffer_t := { b2 with ctrl := { b2.ctrl with head_index := 0 } }
    let b4 := RING_BUFFER_CTRL_SET_PATTERN b3 pattern
    .ok (RING_BUFFER_CTRL_SET_STATUS b4 RING_BUFFER_INIT_STATUS)
  else .error .assert_failed

/-- `ring_buffer_deinit`: `memset` is called with `buffer_mask` as its length. -/
def ring_buffer_deinit (buffer : ring_buffer_t) : Result ring_buffer_t := do
  let mem ← memset buffer.buffer 0 buffer.ctrl.buffer_mask
  let b1 : ring_buffer_t := { ctrl := { buffer.ctrl with tail_index := 0 }, buffer := mem }
  let b2 : ring_buffer_t := { b1 with ctrl := { b1.ctrl with head_index := 0 } }
  let b3 : ring_buffer_t := { b2 with ctrl := { b2.ctrl with buffer_mask := 0 } }
  pure (RING_BUFFER_CTRL_SET_STATUS b3 RING_BUFFER_DEINIT_STATUS)

/-- `ring_buffer_queue`: the body of `if (ring_buffer_is_full(buffer))` is
empty, so the test has no effect and the byte is always placed. -/
def ring_buffer_queue (buffer : ring_buffer_t) (data : Nat) : Result ring_buffer_t := do
  let mem ← store buffer.buffer buffer.ctrl.head_index data
  pure { ctrl := { buffer.ctrl with
           head_index := size_add buffer.ctrl.head_index 1 &&& RING_BUFFER_MASK buffer },
         buffer := mem }

/-- The `for` loop of `ring_buffer_queue_arr` at counter `i`, with `n = size - i`
iterations left. -/
def queue_arr_loop (buffer : ring_buffer_t) (data : List Nat) (i : Nat) :
    Nat → Result ring_buffer_t
  | 0 => .ok buffer
  | n + 1 => do
    let d ← load data i
    let b ← ring_buffer_queue buffer d
    queue_arr_loop b data (i + 1) n

/-- `ring_buffer_queue_arr`. -/
def ring_buffer_queue_arr (buffer : ring_buffer_t) (data : List Nat) (size : Nat) :
    Result ring_buffer_t :=
  queue_arr_loop buffer data 0 size

/-- `ring_buffer_memcpy`; the result is the new state and the returned count. -/
def ring_buffer_memcpy (rb : ring_buffer_t) (data : List Nat) (size : Nat) :
    Result (ring_buffer_t × Nat) :=
  if size = 0 then .ok (rb, 0)
  else do
    let items ← ring_buffer_num_items rb
    let available_space := size_sub rb.ctrl.buffer_mask items
    if available_space < size then pure (rb, 0)
    else
      let bytes_to_write := if size > available_space then available_space else size
      let first_chunk := size_sub rb.ctrl.buffer_mask rb.ctrl.head_index
      if bytes_to_write ≤ first_chunk then do
        let mem ← memcpy rb.buffer rb.ctrl.head_index data 0 bytes_to_write
        pure ({ ctrl := { rb.ctrl with
                  head_index := size_add rb.ctrl.head_index bytes_to_write
                    &&& RING_BUFFER_MASK rb },
                buffer := mem }, bytes_to_write)
      else do
        let mem1 ← memcpy rb.buffer rb.ctrl.head_index data 0 first_chunk
        let mem2 ← memcpy mem1 0 data first_chunk (bytes_to_write - first_chunk)
        pure ({ ctrl := { rb.ctrl with
                  head_index := size_add (size_add rb.ctrl.head_index bytes_to_write) 1
                    &&& RING_BUFFER_MASK rb },
                buffer := mem2 }, bytes_to_write)

/-- `ring_buffer_dequeue`; the result is the new state, the value of `*data`
after the call and the returned flag. -/
def ring_buffer_dequeue (buffer : ring_buffer_t) (data : Nat) :
    Result (ring_buffer_t × Nat × Nat) :=
  if ring_buffer_is_empty buffer = true then .ok (buffer, data, 0)
  else do
    let v ← load buffer.buffer buffer.ctrl.tail_index
    pure ({ buffer with ctrl := { buffer.ctrl with
              tail_index := size_add buffer.ctrl.tail_index 1 &&& RING_BUFFER_MASK buffer } },
          v, 1)

/-- The `while` loop of `ring_buffer_dequeue_arr` at counter `cnt`, with
`n = len - cnt`; `data_ptr` is `data + cnt`, and the callee stores through it
only when it returns 1. -/
def dequeue_arr_loop (buffer : ring_buffer_t) (data : List Nat) (cnt : Nat) :
    Nat → Result (ring_buffer_t × List Nat × Nat)
  | 0 => .ok (buffer, data, cnt)
  | n + 1 => do
    let r ← ring_buffer_dequeue buffer (data.getD cnt 0)
    if r.2.2 = 0 then pure (r.1, data, cnt)
    else do
      let data1 ← store data cnt r.2.1
      dequeue_arr_loop r.1 data1 (cnt + 1) n

/-- `ring_buffer_dequeue_arr`; the result is the new state, the array `data`
after the call and the returned count. -/
def ring_buffer_dequeue_arr (buffer : ring_buffer_t) (data : List Nat) (len : Nat) :
    Result (ring_buffer_t × List Nat × Nat) :=
  if ring_buffer_is_empty buffer = true then .ok (buffer, data, 0)
  else dequeue_arr_loop buffer data 0 len

/-- `ring_buffer_read_memcpy`; the result is the new state, the array `dst`
after the call and the returned count. -/
def ring_buffer_read_memcpy (rb : ring_buffer_t) (dst : List Nat) (len : Nat) :
    Result (ring_buffer_t × List Nat × Nat) :=
  if len = 0 then .ok (rb, dst, 0)
  else if ring_buffer_is_empty rb = true then .ok (rb, dst, 0)
  else do
    let available_data ← ring_buffer_num_items rb
    let bytes_to_read := if len > available_data then available_data else len
    let first_chunk := size_sub rb.ctrl.buffer_mask rb.ctrl.tail_index
    if bytes_to_read ≤ first_chunk then do
      let dst1 ← memcpy dst 0 rb.buffer rb.ctrl.tail_index bytes_to_read
      pure ({ rb with ctrl := { rb.ctrl with
                tail_index := size_add rb.ctrl.tail_index bytes_to_read
                  &&& RING_BUFFER_MASK rb } },
            dst1, bytes_to_read)
    else do
      let dst1 ← memcpy dst 0 rb.buffer rb.ctrl.tail_index first_chunk
      let dst2 ← memcpy dst1 first_chunk rb.buffer 0 (bytes_to_read - first_chunk)
      pure ({ rb with ctrl := { rb.ctrl with
                tail_index := size_add (size_add rb.ctrl.tail_index bytes_to_read) 1
                  &&& RING_BUFFER_MASK rb } },
            dst2, bytes_to_read)

/-- Modelled from the spec: `ZynqBench::memload64` is declared in
`ZynqPerf.hpp`, which is not among the sources.  The spec describes the
memload reads as the same two-chunk copy as the bulk read with no destination:
the call loads `n` bytes starting at `mem + off` and stores nothing. -/
def memload64 (mem : List Nat) (off : Nat) (n : Nat) : Result Unit :=
  if off + n ≤ mem.length then .ok () else .error .out_of_bounds

/-- `ring_buffer_read_memload_wait`.  `ZynqPerfHelpers::busy_wait_ns` only
passes time; with no producer running, a loop condition that holds once holds
for ever. -/
def ring_buffer_read_memload_wait (rb : ring_buffer_t) (len : Nat) :
    Result (ring_buffer_t × Nat) :=
  if len = 0 then .ok (rb, 0)
  else do
    let polled ← ring_buffer_num_items rb
    if polled < len then throw Fault.spins
    else do
      let available_data ← ring_buffer_num_items rb
      let bytes_to_read := if len > available_data then available_data else len
      let first_chunk := size_sub rb.ctrl.buffer_mask rb.ctrl.tail_index
      if bytes_to_read ≤ first_chunk then do
        memload64 rb.buffer rb.ctrl.tail_index bytes_to_read
        pure ({ rb with ctrl := { rb.ctrl with
                  tail_index := size_add rb.ctrl.tail_index bytes_to_read
                    &&& RING_BUFFER_MASK rb } },
              bytes_to_read)
      else do
        memload64 rb.buffer rb.ctrl.tail_index first_chunk
        memload64 rb.buffer 0 (bytes_to_read - first_chunk)
        pure ({ rb with ctrl := { rb.ctrl with
                  tail_index := size_add (size_add rb.ctrl.tail_index bytes_to_read) 1
                    &&& RING_BUFFER_MASK rb } },
              bytes_to_read)

/-- `ring_buffer_read_memload_nowait`. -/
def ring_buffer_read_memload_nowait (rb : ring_buffer_t) (len : Nat) :
    Result (ring_buffer_t × Nat) :=
  if len = 0 then .ok (rb, 0)
  else if ring_buffer_is_empty rb = true then .ok (rb, 0)
  else do
    let available_data ← ring_buffer_num_items rb
    let bytes_to_read := if len > available_data then available_data else len
    let first_chunk := size_sub rb.ctrl.buffer_mask rb.ctrl.tail_index
    if bytes_to_read ≤ first_chunk then do
      memload64 rb.buffer rb.ctrl.tail_index bytes_to_read
      pure ({ rb with ctrl := { rb.ctrl with
                tail_index := size_add rb.ctrl.tail_index bytes_to_read
                  &&& RING_BUFFER_MASK rb } },
            bytes_to_read)
    else do
      memload64 rb.buffer rb.ctrl.tail_index first_chunk
      memload64 rb.buffer 0 (bytes_to_read - first_chunk)
      pure ({ rb with ctrl := { rb.ctrl with
                tail_index := size_add (size_add rb.ctrl.tail_index bytes_to_read) 1
                  &&& RING_BUFFER_MASK rb } },
            bytes_to_read)

/-- `ring_buffer_peek`; the result is the state after the call, the value of
`*data` after the call and the returned flag. -/
def ring_buffer_peek (buffer : ring_buffer_t) (data : Nat) (index : Nat) :
    Result (ring_buffer_t × Nat × Nat) := do
  let items ← ring_buffer_num_items buffer
  if index ≥ items then pure (buffer, data, 0)
  else do
    let data_index := size_add buffer.ctrl.tail_index index &&& RING_BUFFER_MASK buffer
    let v ← load buffer.buffer data_index
    pure (buffer, v, 1)


/-! ## Specification-side notions -/

/-- A buffer state as the claims describe it: capacity `2 ^ k` (a power of two
that fits `size_t`), mask `2 ^ k - 1`, both indices in `0 .. mask`, and a slot
array of `mask + 1` bytes. -/
def WF (rb : ring_buffer_t) (k : Nat) : Prop :=
  k < 64 ∧ rb.ctrl.buffer_mask = 2 ^ k - 1 ∧ rb.ctrl.head_index < 2 ^ k ∧
    rb.ctrl.tail_index < 2 ^ k ∧ rb.buffer.length = 2 ^ k

instance (rb : ring_buffer_t) (k : Nat) : Decidable (WF rb k) := by
  unfold WF; infer_instance

/-- The derived quantity of the data model:
`occupied = (head_index − tail_index) mod (capacity_mask + 1)`. -/
def occupied (rb : ring_buffer_t) : Nat :=
  (rb.ctrl.head_index + (rb.ctrl.buffer_mask + 1) - rb.ctrl.tail_index)
    % (rb.ctrl.buffer_mask + 1)

/-- The slot that lies `i` places after the tail. -/
def slot_at (rb : ring_buffer_t) (i : Nat) : Nat :=
  rb.buffer.getD ((rb.ctrl.tail_index + i) % (rb.ctrl.buffer_mask + 1)) 0

/-- The bytes held, oldest first. -/
def contents (rb : ring_buffer_t) : List Nat :=
  (List.range (occupied rb)).map (slot_at rb)

/-- A call of one of the two byte-wise primitives. -/
inductive ByteOp where
  /-- `ring_buffer_queue(buffer, data)`. -/
  | queue (data : Nat)
  /-- `ring_buffer_dequeue(buffer, &c)` with `c` holding 0 before the call. -/
  | dequeue
  deriving DecidableEq, Repr

/-- Runs a sequence of byte-wise calls; the second component lists, for every
`ring_buffer_dequeue` call in order, the returned flag and the value of `*data`
after the call. -/
def run_byte_ops (rb : ring_buffer_t) : List ByteOp → Result (ring_buffer_t × List (Nat × Nat))
  | [] => .ok (rb, [])
  | ByteOp.queue v :: ops => do
    let rb1 ← ring_buffer_queue rb v
    run_byte_ops rb1 ops
  | ByteOp.dequeue :: ops => do
    let r ← ring_buffer_dequeue rb 0
    let rest ← run_byte_ops r.1 ops
    pure (rest.1, (r.2.2, r.2.1) :: rest.2)

/-- The FIFO queue the spec describes, started with `held` (oldest first): a
dequeue while at least one byte is held yields flag 1 and the oldest byte, a
dequeue while none is held yields flag 0 and leaves the caller's 0. -/
def fifo_model (held : List Nat) : List ByteOp → List (Nat × Nat)
  | [] => []
  | ByteOp.queue v :: ops => fifo_model (held ++ [v]) ops
  | ByteOp.dequeue :: ops =>
    match held with
    | [] => (0, 0) :: fifo_model [] ops
    | b :: rest => (1, b) :: fifo_model rest ops

/-- The bytes the FIFO model holds after the calls. -/
def fifo_held (held : List Nat) : List ByteOp → List Nat
  | [] => held
  | ByteOp.queue v :: ops => fifo_held (held ++ [v]) ops
  | ByteOp.dequeue :: ops => fifo_held held.tail ops

/-- The number of enqueued-but-not-yet-dequeued bytes, `held` at the start,
never exceeds `limit` during the calls. -/
def within_capacity (limit : Nat) (held : Nat) : List ByteOp → Bool
  | [] => true
  | ByteOp.queue _ :: ops => decide (held + 1 ≤ limit) && within_capacity limit (held + 1) ops
  | ByteOp.dequeue :: ops => within_capacity limit (held - 1) ops

/-- The last of `n + 1` consecutive `ring_buffer_dequeue(buffer, &c)` calls on
the same variable `c`, which holds `d` before the first call: the state after
it, the value of `c` after it and the flag it returned. -/
def dequeue_last (rb : ring_buffer_t) (d : Nat) : Nat → Result (ring_buffer_t × Nat × Nat)
  | 0 => ring_buffer_dequeue rb d
  | n + 1 => do
    let r ← ring_buffer_dequeue rb d
    dequeue_last r.1 r.2.1 n

/-- A control block and an 8-byte slot array as the caller hands them to
`ring_buffer_init`: all fields zero. -/
def fresh8 : ring_buffer_t := ⟨⟨0, 0, 0, 0⟩, List.replicate 8 0⟩

/-- A control block and a 32-byte slot array as the caller hands them to
`ring_buffer_init`: all fields zero. -/
def fresh32 : ring_buffer_t := ⟨⟨0, 0, 0, 0⟩, List.replicate 32 0⟩

/-- The 31-byte payload `1, 2, .., 31`. -/
def payload31 : List Nat := List.range' 1 31

/-- A state of capacity 8 that holds the three bytes `11, 12, 13` across the
end of the slot array (tail 6, head 1). -/
def wrapped8 : ring_buffer_t := ⟨⟨1, 7, 6, 1⟩, [13, 0, 0, 0, 0, 0, 11, 12]⟩

/-- An empty state of capacity 8 whose indices both sit at 5 (`capacity_mask - 2`),
over a slot array that still holds old bytes `90 .. 97`. -/
def at5 : ring_buffer_t := ⟨⟨1, 7, 5, 5⟩, [90, 91, 92, 93, 94, 95, 96, 97]⟩

/-- The full state of capacity 8 that seven enqueues of `1 .. 7` leave after
`ring_buffer_init`: head 7, tail 0. -/
def full8 : ring_buffer_t := ⟨⟨1, 7, 0, 7⟩, [1, 2, 3, 4, 5, 6, 7, 0]⟩

/-- The number of bytes the bulk operations take to be held: the index
difference reduced modulo the mask, with index `mask` standing for position 0.
It is the value `ring_buffer_num_items` computes (lemma `num_items_eq_bulk_count`). -/
def bulk_count (rb : ring_buffer_t) : Nat :=
  (rb.ctrl.head_index % rb.ctrl.buffer_mask + rb.ctrl.buffer_mask
      - rb.ctrl.tail_index % rb.ctrl.buffer_mask) % rb.ctrl.buffer_mask

/-- The slot the bulk operations use `j` places after the tail: they cycle
through slots `0 .. mask - 1` only. -/
def bulk_slot (rb : ring_buffer_t) (j : Nat) : Nat :=
  rb.buffer.getD ((rb.ctrl.tail_index % rb.ctrl.buffer_mask + j) % rb.ctrl.buffer_mask) 0

/-- The bytes held as the bulk operations see them, oldest first. -/
def bulk_contents (rb : ring_buffer_t) : List Nat :=
  (List.range (bulk_count rb)).map (bulk_slot rb)

/-- A call of one of the two bulk primitives. -/
inductive BulkOp where
  /-- `ring_buffer_memcpy(rb, data, size)` with `size` the length of `data`. -/
  | write (data : List Nat)
  /-- `ring_buffer_read_memcpy(rb, dst, len)` into a zeroed array `dst` of
  `len` bytes. -/
  | read (len : Nat)
  deriving DecidableEq, Repr

/-- What a bulk call hands back. -/
inductive BulkOut where
  /-- the count `ring_buffer_memcpy` returned. -/
  | wrote (count : Nat)
  /-- the count `ring_buffer_read_memcpy` returned and the array `dst` after
  the call. -/
  | got (count : Nat) (dst : List Nat)
  deriving DecidableEq, Repr

/-- Runs a sequence of bulk calls and lists what each handed back. -/
def run_bulk_ops (rb : ring_buffer_t) : List BulkOp → Result (ring_buffer_t × List BulkOut)
  | [] => .ok (rb, [])
  | BulkOp.write data :: ops => do
    let w ← ring_buffer_memcpy rb data data.length
    let rest ← run_bulk_ops w.1 ops
    pure (rest.1, BulkOut.wrote w.2 :: rest.2)
  | BulkOp.read len :: ops => do
    let r ← ring_buffer_read_memcpy rb (List.replicate len 0) len
    let rest ← run_bulk_ops r.1 ops
    pure (rest.1, BulkOut.got r.2.2 r.2.1 :: rest.2)

/-- The FIFO of usable capacity `limit` that the spec describes for the bulk
operations, started with `held` unread bytes: a write that fits is accepted
whole and returns its length, one that does not fit returns 0 and writes
nothing; a read returns `min(len, unread)` and delivers that many of the oldest
bytes, in order, at the start of the destination. -/
def bulk_model (limit : Nat) (held : List Nat) : List BulkOp → List BulkOut
  | [] => []
  | BulkOp.write data :: ops =>
    if held.length + data.length ≤ limit then
      BulkOut.wrote data.length :: bulk_model limit (held ++ data) ops
    else BulkOut.wrote 0 :: bulk_model limit held ops
  | BulkOp.read len :: ops =>
    BulkOut.got (min len held.length)
        (held.take (min len held.length) ++ List.replicate (len - min len held.length) 0)
      :: bulk_model limit (held.drop (min len held.length)) ops

/-- The unread bytes of `bulk_model` after the calls. -/
def bulk_held (limit : Nat) (held : List Nat) : List BulkOp → List Nat
  | [] => held
  | BulkOp.write data :: ops =>
    if held.length + data.length ≤ limit then bulk_held limit (held ++ data) ops
    else bulk_held limit held ops
  | BulkOp.read len :: ops => bulk_held limit (held.drop (min len held.length)) ops

/-- The number of written-but-unread bytes, `held` at the start, is strictly
below `limit` after every write of the sequence. -/
def bulk_below (limit : Nat) (held : Nat) : List BulkOp → Bool
  | [] => true
  | BulkOp.write data :: ops =>
    if held + data.length ≤ limit then
      decide (held + data.length < limit) && bulk_below limit (held + data.length) ops
    else bulk_below limit held ops
  | BulkOp.read len :: ops => bulk_below limit (held - min len held) ops

/-- The concatenation of all bytes the reads of a run delivered. -/
def bytes_read : List BulkOut → List Nat
  | [] => []
  | BulkOut.wrote _ :: outs => bytes_read outs
  | BulkOut.got count dst :: outs => dst.take count ++ bytes_read outs

/-- The concatenation of all bytes the writes of a run wrote: of each payload
as many bytes as the call returned. -/
def bytes_written : List BulkOp → List BulkOut → List Nat
  | BulkOp.write data :: ops, BulkOut.wrote count :: outs =>
    data.take count ++ bytes_written ops outs
  | _ :: ops, _ :: outs => bytes_written ops outs
  | _, _ => []

/-- A bulk-only run at capacity 8 (mask 7): a 5-byte write, a 4-byte read, a
4-byte write that wraps, a 3-byte write that does not fit, and two reads. -/
def bulk_ops_example : List BulkOp :=
  [BulkOp.write [1, 2, 3, 4, 5], BulkOp.read 4, BulkOp.write [6, 7, 8, 9],
    BulkOp.write [10, 11, 12], BulkOp.read 6, BulkOp.read 1]

/-- A call of one of the engine's operations on an initialised buffer.  Every
payload has exactly the length passed as `size`, and every destination is a
zeroed array of exactly the `len` bytes asked for, so that an access beyond the
requested length is an access outside the array. -/
inductive EngineOp where
  /-- `ring_buffer_queue(buffer, data)`. -/
  | queue (data : Nat)
  /-- `ring_buffer_queue_arr(buffer, data, size)`. -/
  | queue_arr (data : List Nat)
  /-- `ring_buffer_memcpy(rb, data, size)`. -/
  | memcpy (data : List Nat)
  /-- `ring_buffer_dequeue(buffer, &c)`. -/
  | dequeue
  /-- `ring_buffer_dequeue_arr(buffer, data, len)`. -/
  | dequeue_arr (len : Nat)
  /-- `ring_buffer_read_memcpy(rb, dst, len)`. -/
  | read_memcpy (len : Nat)
  /-- `ring_buffer_read_memload_wait(rb, len)`. -/
  | read_memload_wait (len : Nat)
  /-- `ring_buffer_read_memload_nowait(rb, len)`. -/
  | read_memload_nowait (len : Nat)
  /-- `ring_buffer_peek(buffer, &c, index)`. -/
  | peek (index : Nat)
  deriving DecidableEq, Repr

/-- The state one engine call leaves. -/
def run_engine_op (rb : ring_buffer_t) : EngineOp → Result ring_buffer_t
  | EngineOp.queue v => ring_buffer_queue rb v
  | EngineOp.queue_arr data => ring_buffer_queue_arr rb data data.length
  | EngineOp.memcpy data => do
    let r ← ring_buffer_memcpy rb data data.length
    pure r.1
  | EngineOp.dequeue => do
    let r ← ring_buffer_dequeue rb 0
    pure r.1
  | EngineOp.dequeue_arr len => do
    let r ← ring_buffer_dequeue_arr rb (List.replicate len 0) len
    pure r.1
  | EngineOp.read_memcpy len => do
    let r ← ring_buffer_read_memcpy rb (List.replicate len 0) len
    pure r.1
  | EngineOp.read_memload_wait len => do
    let r ← ring_buffer_read_memload_wait rb len
    pure r.1
  | EngineOp.read_memload_nowait len => do
    let r ← ring_buffer_read_memload_nowait rb len
    pure r.1
  | EngineOp.peek index => do
    let r ← ring_buffer_peek rb 0 index
    pure r.1

/-- The state a sequence of engine calls leaves; a call that faults or never
returns ends the run with its fault. -/
def run_engine_ops (rb : ring_buffer_t) : List EngineOp → Result ring_buffer_t
  | [] => .ok rb
  | op :: ops => do
    let rb1 ← run_engine_op rb op
    run_engine_ops rb1 ops

/-- A run at capacity 8 that mixes the byte-wise and the bulk operations and
wraps both indices. -/
def engine_ops_example : List EngineOp :=
  [EngineOp.queue_arr [1, 2, 3, 4, 5, 6], EngineOp.peek 2, EngineOp.read_memcpy 4,
    EngineOp.memcpy [7, 8, 9, 10], EngineOp.dequeue, EngineOp.read_memload_nowait 9,
    EngineOp.queue 11, EngineOp.memcpy [12, 13, 14, 15, 16], EngineOp.dequeue_arr 3,
    EngineOp.read_memload_wait 2, EngineOp.memcpy [17, 18, 19, 20, 21, 22, 23, 24]]

theorem two_pow_lt_size {k : Nat} (hk : k < 64) : 2 ^ k ≤ 2 ^ 63 := 
  Nat.pow_le_pow_right (by norm_num) (by omega)

theorem mod_lt_two (x c : Nat) (h : x < 2 * c) :
    (x < c ∧ x % c = x) ∨ (c ≤ x ∧ x % c = x - c) := by
  rcases Nat.lt_or_ge x c with h1 | h1
  · exact Or.inl ⟨h1, Nat.mod_eq_of_lt h1⟩
  · refine Or.inr ⟨h1, ?_⟩
    rw [Nat.mod_eq_sub_mod h1, Nat.mod_eq_of_lt (by omega)]

theorem size_add_eq {a b : Nat} (h : a + b < 2 ^ 64) : size_add a b = a + b := by
  unfold size_add SIZE_MOD
  exact Nat.mod_eq_of_lt h

theorem size_sub_eq_of_le {a b : Nat} (hb : b ≤ a) (ha : a < 2 ^ 64) :
    size_sub a b = a - b := by
  unfold size_sub SIZE_MOD
  rw [Nat.mod_eq_of_lt ha, Nat.mod_eq_of_lt (show b < 2 ^ 64 by omega)]
  rcases mod_lt_two (a + (2 ^ 64 - b)) (2 ^ 64) (by omega) with ⟨h1, h2⟩ | ⟨h1, h2⟩ <;> omega

theorem size_sub_eq_of_lt {a b : Nat} (h : a < b) (hb : b < 2 ^ 64) :
    size_sub a b = a + 2 ^ 64 - b := by
  unfold size_sub SIZE_MOD
  rw [Nat.mod_eq_of_lt (show a < 2 ^ 64 by omega), Nat.mod_eq_of_lt hb]
  rcases mod_lt_two (a + (2 ^ 64 - b)) (2 ^ 64) (by omega) with ⟨h1, h2⟩ | ⟨h1, h2⟩ <;> omega

theorem to_int64_size_sub {a b : Nat} (ha : a < 2 ^ 63) (hb : b < 2 ^ 63) :
    to_int64 (size_sub a b) = (a : Int) - (b : Int) := by
  rcases Nat.lt_or_ge a b with h | h
  · rw [size_sub_eq_of_lt h (by omega)]
    unfold to_int64 SIZE_MOD
    rw [Nat.mod_eq_of_lt (show a + 2 ^ 64 - b < 2 ^ 64 by omega)]
    rw [if_neg (by omega)]
    omega
  · rw [size_sub_eq_of_le h (by omega)]
    unfold to_int64 SIZE_MOD
    rw [Nat.mod_eq_of_lt (show a - b < 2 ^ 64 by omega)]
    rw [if_pos (by omega)]
    omega

theorem to_int64_small {a : Nat} (ha : a < 2 ^ 63) : to_int64 a = (a : Int) := by
  unfold to_int64 SIZE_MOD
  rw [Nat.mod_eq_of_lt (show a < 2 ^ 64 by omega), if_pos ha]

theorem neg_lt_tmod (d m : Int) (hm : 0 < m) : -m < Int.tmod d m := by
  obtain ⟨n, rfl⟩ := Int.eq_ofNat_of_zero_le (Int.le_of_lt hm)
  cases d with
  | ofNat a =>
    have : 0 ≤ Int.tmod (Int.ofNat a) (n : Int) := Int.tmod_nonneg _ (Int.ofNat_nonneg a)
    omega
  | negSucc a =>
    have h : Int.tmod (Int.negSucc a) (n : Int) = -((((a + 1) % n : Nat)) : Int) := rfl
    rw [h]
    have : (a + 1) % n < n := Nat.mod_lt _ (by omega)
    omega

/-- With a positive divisor the correction step of `TRUE_MODULO` turns the
truncating remainder into the Euclidean one. -/
theorem tmod_fix (d m : Int) (hm : 0 < m) :
    (if Int.tmod d m < 0 then Int.tmod d m + m else Int.tmod d m) = d % m := by
  have h1 := Int.tmod_add_tdiv d m
  have h2 : d % m = (Int.tmod d m) % m := by
    conv_lhs => rw [← h1]
    exact Int.add_mul_emod_self_left _ _ _
  have h3 : Int.tmod d m < m := Int.tmod_lt_of_pos d hm
  have h4 : -m < Int.tmod d m := neg_lt_tmod d m hm
  rw [h2]
  split
  · next h =>
    rw [← Int.add_emod_self, Int.emod_eq_of_lt (by omega) (by omega)]
  · next h =>
    rw [Int.emod_eq_of_lt (by omega) (by omega)]

theorem TRUE_MODULO_eq {a b m : Nat} (ha : a < 2 ^ 63) (hb : b < 2 ^ 63) (hm0 : 0 < m)
    (hm : m < 2 ^ 63) :
    TRUE_MODULO (size_sub a b) m = .ok (((a : Int) - (b : Int)) % (m : Int)) := by
  unfold TRUE_MODULO
  simp only [to_int64_size_sub ha hb, to_int64_small hm]
  have hm1 : ¬ ((m : Int) = 0) := by omega
  have hm2 : ¬ (((a : Int) - (b : Int)) = -(2 : Int) ^ 63 ∧ (m : Int) = -1) := by omega
  have hm3 : (m : Int) > 0 := by omega
  rw [if_neg hm1, if_neg hm2]
  have key := tmod_fix ((a : Int) - (b : Int)) (m : Int) hm3
  by_cases hneg : Int.tmod ((a : Int) - (b : Int)) (m : Int) < 0
  · rw [if_pos hneg] at key
    rw [if_pos hneg, if_pos hm3, key]
  · rw [if_neg hneg] at key
    rw [if_neg hneg, key]

/-- What `ring_buffer_num_items` computes on a buffer state of capacity at
least 2: the index difference reduced modulo the mask (not modulo the
capacity). -/
theorem num_items_cases {rb : ring_buffer_t} {k : Nat} (wf : WF rb k) (hk : 1 ≤ k) :
    ∃ n, ring_buffer_num_items rb = .ok n ∧
      ((rb.ctrl.tail_index ≤ rb.ctrl.head_index ∧
          rb.ctrl.head_index - rb.ctrl.tail_index < rb.ctrl.buffer_mask ∧
          n = rb.ctrl.head_index - rb.ctrl.tail_index) ∨
       (rb.ctrl.head_index - rb.ctrl.tail_index = rb.ctrl.buffer_mask ∧ n = 0) ∨
       (rb.ctrl.head_index < rb.ctrl.tail_index ∧
          rb.ctrl.tail_index - rb.ctrl.head_index < rb.ctrl.buffer_mask ∧
          n = rb.ctrl.buffer_mask - (rb.ctrl.tail_index - rb.ctrl.head_index)) ∨
       (rb.ctrl.tail_index - rb.ctrl.head_index = rb.ctrl.buffer_mask ∧ n = 0)) := by
  obtain ⟨hk64, hmask, hh, ht, _⟩ := wf
  have hcap : 2 ^ k ≤ 2 ^ 63 := two_pow_lt_size hk64
  have h2 : 2 ≤ 2 ^ k := by
    calc 2 = 2 ^ 1 := by norm_num
      _ ≤ 2 ^ k := Nat.pow_le_pow_right (by norm_num) hk
  have hm0 : 0 < rb.ctrl.buffer_mask := by omega
  have hm : rb.ctrl.buffer_mask < 2 ^ 63 := by omega
  unfold ring_buffer_num_items RING_BUFFER_MASK
  rw [TRUE_MODULO_eq (by omega) (by omega) hm0 hm]
  refine ⟨_, rfl, ?_⟩
  generalize rb.ctrl.buffer_mask = m at *
  generalize rb.ctrl.head_index = h at *
  generalize rb.ctrl.tail_index = t at *
  have hm' : (0 : Int) < (m : Int) := by omega
  have hr0 := Int.emod_nonneg ((h : Int) - (t : Int)) (show (m : Int) ≠ 0 by omega)
  have hr1 := Int.emod_lt_of_pos ((h : Int) - (t : Int)) hm'
  have hsmall : ((h : Int) - (t : Int)) % (m : Int) % (2 : Int) ^ 64
      = ((h : Int) - (t : Int)) % (m : Int) := Int.emod_eq_of_lt hr0 (by omega)
  unfold of_int64
  rw [hsmall]
  by_cases c1 : t ≤ h
  · by_cases c2 : h - t < m
    · left
      refine ⟨c1, c2, ?_⟩
      rw [Int.emod_eq_of_lt (by omega) (by omega)]
      omega
    · right; left
      have : h - t = m := by omega
      refine ⟨this, ?_⟩
      have e : (h : Int) - (t : Int) = (m : Int) := by omega
      rw [e, Int.emod_self]
      rfl
  · by_cases c2 : t - h < m
    · right; right; left
      refine ⟨by omega, c2, ?_⟩
      rw [← Int.add_emod_self, Int.emod_eq_of_lt (by omega) (by omega)]
      omega
    · right; right; right
      have : t - h = m := by omega
      refine ⟨this, ?_⟩
      have e : (h : Int) - (t : Int) + (m : Int) = 0 := by omega
      rw [← Int.add_emod_self, e]
      rfl

/-! ## Byte-wise primitives on a well-formed state -/

theorem WF.mask_succ {rb : ring_buffer_t} {k : Nat} (wf : WF rb k) :
    rb.ctrl.buffer_mask + 1 = 2 ^ k := by
  obtain ⟨_, hmask, _, _, _⟩ := wf
  have : 0 < 2 ^ k := Nat.pos_pow_of_pos k (by norm_num)
  omega

theorem WF.and_mask {rb : ring_buffer_t} {k : Nat} (wf : WF rb k) (x : Nat) :
    x &&& RING_BUFFER_MASK rb = x % 2 ^ k := by
  unfold RING_BUFFER_MASK
  rw [wf.2.1]
  exact Nat.and_pow_two_sub_one_eq_mod x k

theorem WF.cap_le {rb : ring_buffer_t} {k : Nat} (wf : WF rb k) : 2 ^ k ≤ 2 ^ 63 :=
  two_pow_lt_size wf.1

/-- The state after `ring_buffer_queue` on a well-formed state. -/
theorem queue_eq {rb : ring_buffer_t} {k : Nat} (wf : WF rb k) (v : Nat) :
    ring_buffer_queue rb v = .ok
      { ctrl := { rb.ctrl with head_index := (rb.ctrl.head_index + 1) % 2 ^ k },
        buffer := rb.buffer.set rb.ctrl.head_index v } := by
  have hcap := wf.cap_le
  obtain ⟨hk64, hmask, hh, ht, hlen⟩ := id wf
  unfold ring_buffer_queue store
  rw [if_pos (by omega)]
  simp only [bind, Except.bind, pure, Except.pure]
  rw [wf.and_mask, size_add_eq (by omega)]

theorem queue_wf {rb : ring_buffer_t} {k : Nat} (wf : WF rb k) (v : Nat) :
    WF { ctrl := { rb.ctrl with head_index := (rb.ctrl.head_index + 1) % 2 ^ k },
         buffer := rb.buffer.set rb.ctrl.head_index v } k := by
  obtain ⟨hk64, hmask, hh, ht, hlen⟩ := wf
  refine ⟨hk64, hmask, ?_, ht, ?_⟩
  · exact Nat.mod_lt _ (by omega)
  · simpa using hlen

/-- Below the usable capacity, `ring_buffer_queue` appends to the held bytes. -/
theorem queue_contents {rb : ring_buffer_t} {k : Nat} (wf : WF rb k) (v : Nat)
    (hroom : occupied rb < rb.ctrl.buffer_mask) :
    contents { ctrl := { rb.ctrl with head_index := (rb.ctrl.head_index + 1) % 2 ^ k },
               buffer := rb.buffer.set rb.ctrl.head_index v }
      = contents rb ++ [v] := by
  have hms := wf.mask_succ
  obtain ⟨hk64, hmask, hh, ht, hlen⟩ := wf
  unfold contents occupied slot_at at *
  simp only [hms] at *
  generalize 2 ^ k = c at *
  generalize rb.ctrl.head_index = h at *
  generalize rb.ctrl.tail_index = t at *
  generalize rb.ctrl.buffer_mask = m at *
  have hocc : ((h + 1) % c + c - t) % c = (h + c - t) % c + 1 := by
    rcases mod_lt_two (h + 1) c (by omega) with ⟨a1, a2⟩ | ⟨a1, a2⟩ <;>
    rcases mod_lt_two (h + c - t) c (by omega) with ⟨b1, b2⟩ | ⟨b1, b2⟩ <;>
    rcases mod_lt_two ((h + 1) % c + c - t) c (by omega) with ⟨c1, c2⟩ | ⟨c1, c2⟩ <;>
    omega
  rw [hocc, List.range_succ, List.map_append]
  congr 1
  · apply List.map_congr_left
    intro i hi
    have hi' : i < (h + c - t) % c := List.mem_range.mp hi
    have hne : h ≠ (t + i) % c := by
      rcases mod_lt_two (h + c - t) c (by omega) with ⟨b1, b2⟩ | ⟨b1, b2⟩ <;>
      rcases mod_lt_two (t + i) c (by omega) with ⟨c1, c2⟩ | ⟨c1, c2⟩ <;>
      omega
    simp [List.getElem?_set_ne hne]
  · have he : (t + (h + c - t) % c) % c = h := by
      rcases mod_lt_two (h + c - t) c (by omega) with ⟨b1, b2⟩ | ⟨b1, b2⟩ <;>
      rcases mod_lt_two (t + (h + c - t) % c) c (by omega) with ⟨c1, c2⟩ | ⟨c1, c2⟩ <;>
      omega
    simp [he, List.getElem?_set_self (show h < rb.buffer.length by omega)]

/-- The state and outputs of `ring_buffer_dequeue` on a well-formed state that
holds at least one byte. -/
theorem dequeue_eq {rb : ring_buffer_t} {k : Nat} (wf : WF rb k) (d : Nat)
    (hne : rb.ctrl.head_index ≠ rb.ctrl.tail_index) :
    ring_buffer_dequeue rb d = .ok
      ({ rb with ctrl := { rb.ctrl with tail_index := (rb.ctrl.tail_index + 1) % 2 ^ k } },
        rb.buffer.getD rb.ctrl.tail_index 0, 1) := by
  have hcap := wf.cap_le
  obtain ⟨hk64, hmask, hh, ht, hlen⟩ := id wf
  unfold ring_buffer_dequeue ring_buffer_is_empty load
  have hlt : rb.ctrl.tail_index < rb.buffer.length := by omega
  simp only [beq_iff_eq, hne, if_false, dif_pos hlt, bind, Except.bind, pure, Except.pure]
  rw [wf.and_mask, size_add_eq (by omega), List.getD_eq_getElem _ _ hlt]
  rfl

theorem dequeue_empty (rb : ring_buffer_t) (d : Nat)
    (he : rb.ctrl.head_index = rb.ctrl.tail_index) :
    ring_buffer_dequeue rb d = .ok (rb, d, 0) := by
  unfold ring_buffer_dequeue ring_buffer_is_empty
  simp [he]

theorem dequeue_wf {rb : ring_buffer_t} {k : Nat} (wf : WF rb k) :
    WF { rb with ctrl := { rb.ctrl with tail_index := (rb.ctrl.tail_index + 1) % 2 ^ k } } k := by
  obtain ⟨hk64, hmask, hh, ht, hlen⟩ := wf
  exact ⟨hk64, hmask, hh, Nat.mod_lt _ (by omega), hlen⟩

theorem occupied_eq_zero_iff {rb : ring_buffer_t} {k : Nat} (wf : WF rb k) :
    occupied rb = 0 ↔ rb.ctrl.head_index = rb.ctrl.tail_index := by
  have hms := wf.mask_succ
  obtain ⟨hk64, hmask, hh, ht, hlen⟩ := wf
  unfold occupied
  rw [hms]
  generalize 2 ^ k = c at *
  rcases mod_lt_two (rb.ctrl.head_index + c - rb.ctrl.tail_index) c (by omega)
    with ⟨b1, b2⟩ | ⟨b1, b2⟩ <;> omega

theorem occupied_le_mask {rb : ring_buffer_t} {k : Nat} (wf : WF rb k) :
    occupied rb ≤ rb.ctrl.buffer_mask := by
  have hms := wf.mask_succ
  unfold occupied
  have := Nat.mod_lt (rb.ctrl.head_index + (rb.ctrl.buffer_mask + 1) - rb.ctrl.tail_index)
    (show 0 < rb.ctrl.buffer_mask + 1 by omega)
  omega

/-- A successful `ring_buffer_dequeue` hands out the oldest held byte and
leaves the others held. -/
theorem dequeue_contents {rb : ring_buffer_t} {k : Nat} (wf : WF rb k)
    (hne : rb.ctrl.head_index ≠ rb.ctrl.tail_index) :
    contents rb = rb.buffer.getD rb.ctrl.tail_index 0 ::
      contents { rb with ctrl := { rb.ctrl with
        tail_index := (rb.ctrl.tail_index + 1) % 2 ^ k } } := by
  have hms := wf.mask_succ
  obtain ⟨hk64, hmask, hh, ht, hlen⟩ := wf
  unfold contents occupied slot_at at *
  simp only [hms] at *
  generalize 2 ^ k = c at *
  generalize rb.ctrl.head_index = h at *
  generalize rb.ctrl.tail_index = t at *
  have hocc : (h + c - t) % c = (h + c - (t + 1) % c) % c + 1 := by
    rcases mod_lt_two (t + 1) c (by omega) with ⟨a1, a2⟩ | ⟨a1, a2⟩ <;>
    rcases mod_lt_two (h + c - t) c (by omega) with ⟨b1, b2⟩ | ⟨b1, b2⟩ <;>
    rcases mod_lt_two (h + c - (t + 1) % c) c (by omega) with ⟨c1, c2⟩ | ⟨c1, c2⟩ <;>
    omega
  rw [hocc, List.range_succ_eq_map, List.map_cons, List.map_map]
  congr 1
  · simp [Nat.mod_eq_of_lt ht]
  · apply List.map_congr_left
    intro i hi
    have hi' : i < (h + c - (t + 1) % c) % c := List.mem_range.mp hi
    have hidx : (t + (i + 1)) % c = ((t + 1) % c + i) % c := by
      rw [Nat.mod_add_mod]
      congr 1
      omega
    simp [hidx]

theorem contents_length (rb : ring_buffer_t) : (contents rb).length = occupied rb := by
  simp [contents]

theorem is_power_of_two_pow {k : Nat} (hk : k < 64) :
    RING_BUFFER_IS_POWER_OF_TWO (2 ^ k) = true := by
  have hcap := two_pow_lt_size hk
  have hpos : 0 < 2 ^ k := Nat.pos_pow_of_pos k (by norm_num)
  unfold RING_BUFFER_IS_POWER_OF_TWO
  rw [size_sub_eq_of_le (by omega) (by omega), Nat.and_pow_two_sub_one_eq_mod, Nat.mod_self]
  rfl

/-- `ring_buffer_init` with a power-of-two capacity succeeds and yields a
well-formed, empty state over the caller's slot array. -/
theorem init_wf (b0 : ring_buffer_t) {k : Nat} (pattern : Nat) (hk : k < 64)
    (hlen : b0.buffer.length = 2 ^ k) :
    ∃ rb, ring_buffer_init b0 (2 ^ k) pattern = .ok rb ∧ WF rb k ∧
      rb.ctrl.head_index = 0 ∧ rb.ctrl.tail_index = 0 ∧ rb.buffer = b0.buffer := by
  have hcap := two_pow_lt_size hk
  have hpos : 0 < 2 ^ k := Nat.pos_pow_of_pos k (by norm_num)
  unfold ring_buffer_init
  rw [if_pos (is_power_of_two_pow hk)]
  refine ⟨_, rfl, ?_, rfl, rfl, rfl⟩
  refine ⟨hk, ?_, hpos, hpos, hlen⟩
  show size_sub (2 ^ k) 1 = 2 ^ k - 1
  exact size_sub_eq_of_le (by omega) (by omega)

theorem contents_of_empty {rb : ring_buffer_t} {k : Nat} (wf : WF rb k)
    (he : rb.ctrl.head_index = rb.ctrl.tail_index) : contents rb = [] := by
  have := (occupied_eq_zero_iff wf).mpr he
  simp [contents, this]

/-- Simulation of the byte-wise primitives by the FIFO model, from any
well-formed state. -/
theorem run_byte_ops_sim {k : Nat} (ops : List ByteOp) :
    ∀ (rb : ring_buffer_t), WF rb k →
      within_capacity (2 ^ k - 1) (occupied rb) ops = true →
      ∃ rb', run_byte_ops rb ops = .ok (rb', fifo_model (contents rb) ops) ∧ WF rb' k ∧
        contents rb' = fifo_held (contents rb) ops := by
  induction ops with
  | nil =>
    intro rb wf _
    exact ⟨rb, rfl, wf, rfl⟩
  | cons op ops ih =>
    intro rb wf hcap
    cases op with
    | queue v =>
      simp only [within_capacity, Bool.and_eq_true, decide_eq_true_eq] at hcap
      have hroom : occupied rb < rb.ctrl.buffer_mask := by
        have := wf.2.1
        omega
      have hc := queue_contents wf v hroom
      have hocc : occupied
          { ctrl := { rb.ctrl with head_index := (rb.ctrl.head_index + 1) % 2 ^ k },
            buffer := rb.buffer.set rb.ctrl.head_index v } = occupied rb + 1 := by
        rw [← contents_length, hc, List.length_append, contents_length]
        rfl
      obtain ⟨rb', hrun, wf', hcont⟩ := ih _ (queue_wf wf v) (by rw [hocc]; exact hcap.2)
      refine ⟨rb', ?_, wf', ?_⟩
      · simp only [run_byte_ops, queue_eq wf v, bind, Except.bind, fifo_model]
        rw [hrun, hc]
      · rw [hcont, hc]
        rfl
    | dequeue =>
      simp only [within_capacity] at hcap
      by_cases he : rb.ctrl.head_index = rb.ctrl.tail_index
      · have hc := contents_of_empty wf he
        have ho : occupied rb = 0 := (occupied_eq_zero_iff wf).mpr he
        obtain ⟨rb', hrun, wf', hcont⟩ := ih rb wf (by rw [ho] at hcap ⊢; exact hcap)
        refine ⟨rb', ?_, wf', ?_⟩
        · simp only [run_byte_ops, dequeue_empty rb 0 he, bind, Except.bind, pure, Except.pure,
            hrun]
          rw [hc]
          rfl
        · rw [hcont, hc]
          rfl
      · have hc := dequeue_contents wf he
        have hocc : occupied
            { rb with ctrl := { rb.ctrl with tail_index := (rb.ctrl.tail_index + 1) % 2 ^ k } }
            = occupied rb - 1 := by
          rw [← contents_length, ← contents_length rb, hc]
          simp
        obtain ⟨rb', hrun, wf', hcont⟩ := ih _ (dequeue_wf wf) (by rw [hocc]; exact hcap)
        refine ⟨rb', ?_, wf', ?_⟩
        · simp only [run_byte_ops, dequeue_eq wf 0 he, bind, Except.bind, pure, Except.pure,
            hrun]
          rw [hc]
          rfl
        · rw [hcont, hc]
          rfl

/-- Any sequence of byte-wise calls runs without fault from a well-formed
state and ends in a well-formed state. -/
theorem run_byte_ops_total {k : Nat} (ops : List ByteOp) :
    ∀ (rb : ring_buffer_t), WF rb k →
      ∃ rb' outs, run_byte_ops rb ops = .ok (rb', outs) ∧ WF rb' k := by
  induction ops with
  | nil =>
    intro rb wf
    exact ⟨rb, [], rfl, wf⟩
  | cons op ops ih =>
    intro rb wf
    cases op with
    | queue v =>
      obtain ⟨rb', outs, hrun, wf'⟩ := ih _ (queue_wf wf v)
      refine ⟨rb', outs, ?_, wf'⟩
      simp only [run_byte_ops, queue_eq wf v, bind, Except.bind]
      exact hrun
    | dequeue =>
      by_cases he : rb.ctrl.head_index = rb.ctrl.tail_index
      · obtain ⟨rb', outs, hrun, wf'⟩ := ih rb wf
        refine ⟨rb', (0, 0) :: outs, ?_, wf'⟩
        simp only [run_byte_ops, dequeue_empty rb 0 he, bind, Except.bind, pure, Except.pure,
          hrun]
      · obtain ⟨rb', outs, hrun, wf'⟩ := ih _ (dequeue_wf wf)
        refine ⟨rb', (1, rb.buffer.getD rb.ctrl.tail_index 0) :: outs, ?_, wf'⟩
        simp only [run_byte_ops, dequeue_eq wf 0 he, bind, Except.bind, pure, Except.pure,
          hrun]

/-- What `ring_buffer_num_items` reports never exceeds the occupied count. -/
theorem num_items_le_occupied {rb : ring_buffer_t} {k : Nat} (wf : WF rb k) (hk : 1 ≤ k) :
    ∃ n, ring_buffer_num_items rb = .ok n ∧ n ≤ occupied rb := by
  obtain ⟨n, hn, hcases⟩ := num_items_cases wf hk
  refine ⟨n, hn, ?_⟩
  have hms := wf.mask_succ
  obtain ⟨hk64, hmask, hh, ht, hlen⟩ := wf
  unfold occupied
  generalize rb.ctrl.head_index = h at *
  generalize rb.ctrl.tail_index = t at *
  generalize rb.ctrl.buffer_mask = m at *
  have hc : m + 1 = 2 ^ k := hms
  rcases mod_lt_two (h + (m + 1) - t) (m + 1) (by omega) with ⟨b1, b2⟩ | ⟨b1, b2⟩ <;>
  rcases hcases with ⟨c1, c2, c3⟩ | ⟨c1, c2⟩ | ⟨c1, c2, c3⟩ | ⟨c1, c2⟩ <;> omega

/-- `ring_buffer_peek` below the reported count reads the slot `index` places
after the tail and changes nothing. -/
theorem peek_eq {rb : ring_buffer_t} {k : Nat} (wf : WF rb k) (hk : 1 ≤ k) (d n idx : Nat)
    (hn : ring_buffer_num_items rb = .ok n) (hidx : idx < n) :
    ring_buffer_peek rb d idx = .ok (rb, slot_at rb idx, 1) := by
  have hcap := wf.cap_le
  have hms := wf.mask_succ
  obtain ⟨n', hn', hle⟩ := num_items_le_occupied wf hk
  have hnn : n' = n := by
    rw [hn] at hn'
    injection hn' with e
    exact e.symm
  subst hnn
  have hocc := occupied_le_mask wf
  obtain ⟨hk64, hmask, hh, ht, hlen⟩ := id wf
  unfold ring_buffer_peek load
  simp only [hn, bind, Except.bind, pure, Except.pure]
  rw [if_neg (by omega), wf.and_mask, size_add_eq (by omega)]
  have hlt : (rb.ctrl.tail_index + idx) % 2 ^ k < rb.buffer.length := by
    rw [hlen]
    exact Nat.mod_lt _ (by omega)
  simp only [dif_pos hlt]
  unfold slot_at
  rw [hms, List.getD_eq_getElem _ _ hlt]
  rfl

/-- On a well-formed state that holds more than `idx` bytes, the last of
`idx + 1` consecutive dequeues succeeds with the slot `idx` places after the
tail. -/
theorem dequeue_last_eq {k : Nat} (idx : Nat) :
    ∀ (rb : ring_buffer_t) (d : Nat), WF rb k → idx < occupied rb →
      ∃ rb', dequeue_last rb d idx = .ok (rb', slot_at rb idx, 1) := by
  induction idx with
  | zero =>
    intro rb d wf hocc
    have hne : rb.ctrl.head_index ≠ rb.ctrl.tail_index := by
      intro he
      have := (occupied_eq_zero_iff wf).mpr he
      omega
    refine ⟨{ rb with ctrl := { rb.ctrl with
      tail_index := (rb.ctrl.tail_index + 1) % 2 ^ k } }, ?_⟩
    simp only [dequeue_last]
    rw [dequeue_eq wf d hne]
    have hms := wf.mask_succ
    have ht := wf.2.2.2.1
    unfold slot_at
    simp only [hms, Nat.add_zero, Nat.mod_eq_of_lt ht]
  | succ idx ih =>
    intro rb d wf hocc
    have hne : rb.ctrl.head_index ≠ rb.ctrl.tail_index := by
      intro he
      have := (occupied_eq_zero_iff wf).mpr he
      omega
    have hc := dequeue_contents wf hne
    have hocc1 : idx < occupied
        { rb with ctrl := { rb.ctrl with tail_index := (rb.ctrl.tail_index + 1) % 2 ^ k } } := by
      have h1 := congrArg List.length hc
      rw [contents_length, List.length_cons, contents_length] at h1
      omega
    obtain ⟨rb', hrun⟩ := ih _ (rb.buffer.getD rb.ctrl.tail_index 0) (dequeue_wf wf) hocc1
    refine ⟨rb', ?_⟩
    simp only [dequeue_last, dequeue_eq wf d hne, bind, Except.bind]
    rw [hrun]
    have hms := wf.mask_succ
    unfold slot_at
    simp only [hms]
    rw [Nat.mod_add_mod, Nat.add_assoc, Nat.add_comm 1 idx]

/-! ## Frame lemmas -/

theorem queue_frame {rb rb' : ring_buffer_t} {v : Nat} (h : ring_buffer_queue rb v = .ok rb') :
    rb'.ctrl.tail_index = rb.ctrl.tail_index ∧ rb'.ctrl.buffer_mask = rb.ctrl.buffer_mask := by
  unfold ring_buffer_queue at h
  simp only [bind, Except.bind, pure, Except.pure] at h
  repeat' split at h
  all_goals (cases h <;> exact ⟨rfl, rfl⟩)

theorem queue_arr_loop_frame {data : List Nat} (n : Nat) :
    ∀ (rb rb' : ring_buffer_t) (i : Nat), queue_arr_loop rb data i n = .ok rb' →
      rb'.ctrl.tail_index = rb.ctrl.tail_index ∧ rb'.ctrl.buffer_mask = rb.ctrl.buffer_mask := by
  induction n with
  | zero =>
    intro rb rb' i h
    cases h
    exact ⟨rfl, rfl⟩
  | succ n ih =>
    intro rb rb' i h
    simp only [queue_arr_loop, bind, Except.bind] at h
    repeat' split at h
    all_goals first
      | cases h
      | skip
    rename_i b hq
    have h1 := queue_frame hq
    have h2 := ih _ _ _ h
    exact ⟨h2.1.trans h1.1, h2.2.trans h1.2⟩

theorem memcpy_frame {rb rb' : ring_buffer_t} {data : List Nat} {size n : Nat}
    (h : ring_buffer_memcpy rb data size = .ok (rb', n)) :
    rb'.ctrl.tail_index = rb.ctrl.tail_index ∧ rb'.ctrl.buffer_mask = rb.ctrl.buffer_mask := by
  unfold ring_buffer_memcpy at h
  simp only [bind, Except.bind, pure, Except.pure] at h
  repeat' split at h
  all_goals (cases h <;> exact ⟨rfl, rfl⟩)

theorem dequeue_frame {rb rb' : ring_buffer_t} {d d' r : Nat}
    (h : ring_buffer_dequeue rb d = .ok (rb', d', r)) :
    rb'.ctrl.head_index = rb.ctrl.head_index ∧ rb'.ctrl.buffer_mask = rb.ctrl.buffer_mask ∧
      rb'.buffer = rb.buffer := by
  unfold ring_buffer_dequeue at h
  simp only [bind, Except.bind, pure, Except.pure] at h
  repeat' split at h
  all_goals (cases h <;> exact ⟨rfl, rfl, rfl⟩)

theorem dequeue_arr_loop_frame (n : Nat) :
    ∀ (rb rb' : ring_buffer_t) (data data' : List Nat) (cnt r : Nat),
      dequeue_arr_loop rb data cnt n = .ok (rb', data', r) →
      rb'.ctrl.head_index = rb.ctrl.head_index ∧ rb'.ctrl.buffer_mask = rb.ctrl.buffer_mask ∧
        rb'.buffer = rb.buffer := by
  induction n with
  | zero =>
    intro rb rb' data data' cnt r h
    cases h
    exact ⟨rfl, rfl, rfl⟩
  | succ n ih =>
    intro rb rb' data data' cnt r h
    simp only [dequeue_arr_loop, bind, Except.bind, pure, Except.pure] at h
    split at h
    · cases h
    · rename_i x res hd
      obtain ⟨rb1, d1, r1⟩ := res
      have h1 := dequeue_frame hd
      split at h
      · cases h
        exact h1
      · split at h
        · cases h
        · have h2 := ih _ _ _ _ _ _ h
          exact ⟨h2.1.trans h1.1, h2.2.1.trans h1.2.1, h2.2.2.trans h1.2.2⟩

theorem dequeue_arr_frame {rb rb' : ring_buffer_t} {data data' : List Nat} {len r : Nat}
    (h : ring_buffer_dequeue_arr rb data len = .ok (rb', data', r)) :
    rb'.ctrl.head_index = rb.ctrl.head_index ∧ rb'.ctrl.buffer_mask = rb.ctrl.buffer_mask ∧
      rb'.buffer = rb.buffer := by
  unfold ring_buffer_dequeue_arr at h
  split at h
  · cases h
    exact ⟨rfl, rfl, rfl⟩
  · exact dequeue_arr_loop_frame _ _ _ _ _ _ _ h

theorem read_memcpy_frame {rb rb' : ring_buffer_t} {dst dst' : List Nat} {len r : Nat}
    (h : ring_buffer_read_memcpy rb dst len = .ok (rb', dst', r)) :
    rb'.ctrl.head_index = rb.ctrl.head_index ∧ rb'.ctrl.buffer_mask = rb.ctrl.buffer_mask ∧
      rb'.buffer = rb.buffer := by
  unfold ring_buffer_read_memcpy at h
  simp only [bind, Except.bind, pure, Except.pure] at h
  repeat' split at h
  all_goals (cases h <;> exact ⟨rfl, rfl, rfl⟩)

theorem read_memload_wait_frame {rb rb' : ring_buffer_t} {len r : Nat}
    (h : ring_buffer_read_memload_wait rb len = .ok (rb', r)) :
    rb'.ctrl.head_index = rb.ctrl.head_index ∧ rb'.ctrl.buffer_mask = rb.ctrl.buffer_mask ∧
      rb'.buffer = rb.buffer := by
  unfold ring_buffer_read_memload_wait at h
  simp only [bind, Except.bind, pure, Except.pure, throw, throwThe, MonadExceptOf.throw] at h
  repeat' split at h
  all_goals (cases h <;> exact ⟨rfl, rfl, rfl⟩)

theorem read_memload_nowait_frame {rb rb' : ring_buffer_t} {len r : Nat}
    (h : ring_buffer_read_memload_nowait rb len = .ok (rb', r)) :
    rb'.ctrl.head_index = rb.ctrl.head_index ∧ rb'.ctrl.buffer_mask = rb.ctrl.buffer_mask ∧
      rb'.buffer = rb.buffer := by
  unfold ring_buffer_read_memload_nowait at h
  simp only [bind, Except.bind, pure, Except.pure] at h
  repeat' split at h
  all_goals (cases h <;> exact ⟨rfl, rfl, rfl⟩)

theorem peek_frame {rb rb' : ring_buffer_t} {d idx d' r : Nat}
    (h : ring_buffer_peek rb d idx = .ok (rb', d', r)) : rb' = rb := by
  unfold ring_buffer_peek at h
  simp only [bind, Except.bind, pure, Except.pure] at h
  repeat' split at h
  all_goals (cases h <;> rfl)

/-! ## Array dequeue -/

theorem take_succ_set (l : List Nat) (i b : Nat) (h : i < l.length) :
    (l.set i b).take (i + 1) = l.take i ++ [b] := by
  rw [List.take_succ, List.getElem?_set_self h]
  have : List.take i (l.set i b) = List.take i l := by
    rw [List.set_eq_take_append_cons_drop, if_pos h]
    rw [List.take_append_of_le_length (by simp; omega)]
    simp
  rw [this]
  rfl

theorem tail_index_self {rb : ring_buffer_t} {k : Nat} (wf : WF rb k) :
    ({ rb with ctrl := { rb.ctrl with
        tail_index := (rb.ctrl.tail_index + 0) % 2 ^ k } } : ring_buffer_t) = rb := by
  rw [Nat.add_zero, Nat.mod_eq_of_lt wf.2.2.2.1]

/-- The loop of `ring_buffer_dequeue_arr`, entered at counter `cnt` with `n`
iterations allowed, moves the `min n occupied` oldest bytes to
`data[cnt ..]`, oldest first. -/
theorem dequeue_arr_loop_eq {k : Nat} (n : Nat) :
    ∀ (rb : ring_buffer_t) (data : List Nat) (cnt : Nat), WF rb k →
      cnt + min n (occupied rb) ≤ data.length →
      dequeue_arr_loop rb data cnt n = .ok
        ({ rb with ctrl := { rb.ctrl with
             tail_index := (rb.ctrl.tail_index + min n (occupied rb)) % 2 ^ k } },
         data.take cnt ++ (contents rb).take (min n (occupied rb))
           ++ data.drop (cnt + min n (occupied rb)),
         cnt + min n (occupied rb)) := by
  induction n with
  | zero =>
    intro rb data cnt wf _
    simp only [dequeue_arr_loop, Nat.zero_min, tail_index_self wf]
    simp
  | succ n ih =>
    intro rb data cnt wf hlen
    by_cases he : rb.ctrl.head_index = rb.ctrl.tail_index
    · have ho : occupied rb = 0 := (occupied_eq_zero_iff wf).mpr he
      simp only [dequeue_arr_loop, dequeue_empty rb _ he, bind, Except.bind, pure, Except.pure,
        ho, Nat.min_zero, tail_index_self wf]
      simp
    · have hc := dequeue_contents wf he
      have hoc : occupied rb = occupied
          { rb with ctrl := { rb.ctrl with tail_index := (rb.ctrl.tail_index + 1) % 2 ^ k } }
          + 1 := by
        have h1 := congrArg List.length hc
        rw [contents_length, List.length_cons, contents_length] at h1
        exact h1
      have hmin : min (n + 1) (occupied rb) = min n (occupied
          { rb with ctrl := { rb.ctrl with tail_index := (rb.ctrl.tail_index + 1) % 2 ^ k } })
          + 1 := by
        rw [hoc]
        omega
      have hcnt : cnt < data.length := by omega
      have hih := ih _ (data.set cnt (rb.buffer.getD rb.ctrl.tail_index 0)) (cnt + 1)
        (dequeue_wf wf) (by rw [List.length_set]; omega)
      simp only [dequeue_arr_loop, dequeue_eq wf _ he, bind, Except.bind, pure, Except.pure,
        store, if_pos hcnt]
      rw [if_neg (by decide), hih, hmin, hc]
      generalize occupied
          { rb with ctrl := { rb.ctrl with tail_index := (rb.ctrl.tail_index + 1) % 2 ^ k } }
        = o1
      generalize contents
          { rb with ctrl := { rb.ctrl with tail_index := (rb.ctrl.tail_index + 1) % 2 ^ k } }
        = c1
      simp only [Nat.mod_add_mod]
      rw [take_succ_set _ _ _ hcnt, List.drop_set_of_lt _ _ (by omega), List.take_succ_cons]
      have e1 : rb.ctrl.tail_index + 1 + min n o1 = rb.ctrl.tail_index + (min n o1 + 1) := by
        omega
      have e2 : cnt + 1 + min n o1 = cnt + (min n o1 + 1) := by omega
      rw [e1, e2]
      simp

/-- `n` consecutive dequeues on a state that holds at least `n` bytes: each
returns 1, and together they hand out the `n` oldest bytes in order. -/
theorem run_dequeues_eq {k : Nat} (n : Nat) :
    ∀ (rb : ring_buffer_t), WF rb k → n ≤ occupied rb →
      run_byte_ops rb (List.replicate n ByteOp.dequeue) = .ok
        ({ rb with ctrl := { rb.ctrl with
             tail_index := (rb.ctrl.tail_index + n) % 2 ^ k } },
         ((contents rb).take n).map (fun b => (1, b))) := by
  induction n with
  | zero =>
    intro rb wf _
    simp only [List.replicate, run_byte_ops, tail_index_self wf]
    simp
  | succ n ih =>
    intro rb wf hn
    have he : rb.ctrl.head_index ≠ rb.ctrl.tail_index := by
      intro he
      have := (occupied_eq_zero_iff wf).mpr he
      omega
    have hc := dequeue_contents wf he
    have hoc : occupied rb = occupied
        { rb with ctrl := { rb.ctrl with tail_index := (rb.ctrl.tail_index + 1) % 2 ^ k } }
        + 1 := by
      have h1 := congrArg List.length hc
      rw [contents_length, List.length_cons, contents_length] at h1
      exact h1
    have hih := ih _ (dequeue_wf wf) (by omega)
    simp only [List.replicate, run_byte_ops, dequeue_eq wf _ he, bind, Except.bind, pure,
      Except.pure, hih]
    rw [hc]
    simp only [Nat.mod_add_mod, List.take_succ_cons, List.map_cons]
    have e1 : rb.ctrl.tail_index + 1 + n = rb.ctrl.tail_index + (n + 1) := by omega
    rw [e1]

/-! ## Control word -/

theorem testBit_status_mask (i : Nat) (hi : i < 8) : Nat.testBit 0xFFFFFF00 i = false := by
  interval_cases i <;> decide

/-- The status byte read back after `RING_BUFFER_CTRL_SET_STATUS`. -/
theorem status_after_set (c v : Nat) (hv : v < 256) :
    ((((c &&& 0xFFFFFF00) ||| (v &&& 0xFF)) % U32_MOD) % 256) &&& 0xFF = v := by
  have e255 : (0xFF : Nat) = 2 ^ 8 - 1 := by norm_num
  have hv' : v &&& 0xFF = v := by
    rw [e255, Nat.and_pow_two_sub_one_eq_mod]
    exact Nat.mod_eq_of_lt (by omega)
  rw [hv']
  have h1 : ∀ X : Nat, X &&& 0xFF = X % 256 := by
    intro X
    rw [e255, Nat.and_pow_two_sub_one_eq_mod]
  rw [h1, Nat.mod_mod, U32_MOD, Nat.mod_mod_of_dvd _ (by norm_num : 256 ∣ 2 ^ 32), ← h1]
  apply Nat.eq_of_testBit_eq
  intro i
  rw [Nat.testBit_and, Nat.testBit_or, Nat.testBit_and, e255, Nat.testBit_two_pow_sub_one]
  by_cases hi : i < 8
  · simp [testBit_status_mask i hi, hi]
  · have : v.testBit i = false := by
      apply Nat.testBit_lt_two_pow
      calc v < 2 ^ 8 := by omega
        _ ≤ 2 ^ i := Nat.pow_le_pow_right (by norm_num) (by omega)
    simp [hi, this]

/-! ## The full buffer -/

/-- On a well-formed state `ring_buffer_is_full` holds exactly when the
occupied count equals the mask. -/
theorem is_full_iff {rb : ring_buffer_t} {k : Nat} (wf : WF rb k) :
    ring_buffer_is_full rb = true ↔ occupied rb = rb.ctrl.buffer_mask := by
  have hcap := wf.cap_le
  have hms := wf.mask_succ
  obtain ⟨hk64, hmask, hh, ht, hlen⟩ := id wf
  unfold ring_buffer_is_full
  rw [wf.and_mask, beq_iff_eq]
  unfold RING_BUFFER_MASK occupied
  rw [hms]
  have hmod : size_sub rb.ctrl.head_index rb.ctrl.tail_index % 2 ^ k
      = (rb.ctrl.head_index + 2 ^ k - rb.ctrl.tail_index) % 2 ^ k := by
    rcases Nat.lt_or_ge rb.ctrl.head_index rb.ctrl.tail_index with hlt | hge
    · rw [size_sub_eq_of_lt hlt (by omega)]
      have hsplit : (2 : Nat) ^ 64 = 2 ^ k + 2 ^ k * (2 ^ (64 - k) - 1) := by
        have hp : (2 : Nat) ^ 64 = 2 ^ k * 2 ^ (64 - k) := by
          rw [← Nat.pow_add]
          congr 1
          omega
        have hpos : 0 < 2 ^ (64 - k) := Nat.pos_pow_of_pos _ (by norm_num)
        rw [hp, Nat.mul_sub, Nat.mul_one]
        have : 2 ^ k ≤ 2 ^ k * 2 ^ (64 - k) := Nat.le_mul_of_pos_right _ hpos
        omega
      have e : rb.ctrl.head_index + 2 ^ 64 - rb.ctrl.tail_index
          = (rb.ctrl.head_index + 2 ^ k - rb.ctrl.tail_index)
            + 2 ^ k * (2 ^ (64 - k) - 1) := by
        rw [hsplit]
        omega
      rw [e, Nat.add_mul_mod_self_left]
    · rw [size_sub_eq_of_le hge (by omega)]
      have e : rb.ctrl.head_index + 2 ^ k - rb.ctrl.tail_index
          = (rb.ctrl.head_index - rb.ctrl.tail_index) + 2 ^ k := by omega
      rw [e, Nat.add_mod_right]
  rw [hmod]

/-- On a full well-formed state of capacity at least 2 the head is the slot
just before the tail, cyclically. -/
theorem full_head_succ {rb : ring_buffer_t} {k : Nat} (wf : WF rb k) (hk1 : 1 ≤ k)
    (hfull : ring_buffer_is_full rb = true) :
    (rb.ctrl.head_index + 1) % 2 ^ k = rb.ctrl.tail_index ∧
      rb.ctrl.head_index ≠ rb.ctrl.tail_index := by
  have hocc := (is_full_iff wf).mp hfull
  have hms := wf.mask_succ
  obtain ⟨hk64, hmask, hh, ht, hlen⟩ := wf
  have h2 : 2 ≤ 2 ^ k := by
    calc 2 = 2 ^ 1 := by norm_num
      _ ≤ 2 ^ k := Nat.pow_le_pow_right (by norm_num) hk1
  unfold occupied at hocc
  rw [hms] at hocc
  generalize 2 ^ k = c at *
  generalize rb.ctrl.head_index = h at *
  generalize rb.ctrl.tail_index = t at *
  rcases mod_lt_two (h + c - t) c (by omega) with ⟨b1, b2⟩ | ⟨b1, b2⟩ <;>
  rcases mod_lt_two (h + 1) c (by omega) with ⟨c1, c2⟩ | ⟨c1, c2⟩ <;>
  constructor <;> omega

/-- Enqueues alone, from a well-formed state: they run without fault, advance
the head by their number modulo the capacity and leave the tail alone. -/
theorem run_queues_eq {k : Nat} (vs : List Nat) :
    ∀ (rb : ring_buffer_t), WF rb k →
      ∃ rb', run_byte_ops rb (vs.map ByteOp.queue) = .ok (rb', []) ∧ WF rb' k ∧
        rb'.ctrl.tail_index = rb.ctrl.tail_index ∧
        rb'.ctrl.head_index = (rb.ctrl.head_index + vs.length) % 2 ^ k := by
  induction vs with
  | nil =>
    intro rb wf
    refine ⟨rb, rfl, wf, rfl, ?_⟩
    simp only [List.length_nil, Nat.add_zero]
    exact (Nat.mod_eq_of_lt wf.2.2.1).symm
  | cons v vs ih =>
    intro rb wf
    obtain ⟨rb', hrun, wf', ht, hh⟩ := ih _ (queue_wf wf v)
    refine ⟨rb', ?_, wf', ht, ?_⟩
    · simp only [List.map_cons, run_byte_ops, queue_eq wf v, bind, Except.bind]
      exact hrun
    · rw [hh]
      simp only [List.length_cons, Nat.mod_add_mod]
      congr 1
      omega

/-! ## Block copies -/

theorem memcpy_ok {dst src : List Nat} {doff soff n : Nat} (h1 : doff + n ≤ dst.length)
    (h2 : soff + n ≤ src.length) :
    memcpy dst doff src soff n
      = .ok (dst.take doff ++ (src.drop soff).take n ++ dst.drop (doff + n)) := by
  unfold memcpy
  rw [if_pos ⟨h1, h2⟩]

theorem blit_length (dst src : List Nat) (doff soff n : Nat) (h1 : doff + n ≤ dst.length)
    (h2 : soff + n ≤ src.length) :
    (dst.take doff ++ (src.drop soff).take n ++ dst.drop (doff + n)).length = dst.length := by
  simp only [List.length_append, List.length_take, List.length_drop]
  omega

/-- Element-wise description of the array a block copy leaves. -/
theorem blit_getElem? (dst src : List Nat) (doff soff n i : Nat) (h1 : doff + n ≤ dst.length)
    (h2 : soff + n ≤ src.length) :
    (dst.take doff ++ (src.drop soff).take n ++ dst.drop (doff + n))[i]?
      = if doff ≤ i ∧ i < doff + n then src[soff + (i - doff)]? else dst[i]? := by
  have hl1 : (dst.take doff).length = doff := by
    rw [List.length_take]
    omega
  have hl2 : ((src.drop soff).take n).length = n := by
    rw [List.length_take, List.length_drop]
    omega
  rw [List.append_assoc]
  by_cases hi : i < doff
  · rw [List.getElem?_append_left (by omega), List.getElem?_take_of_lt hi, if_neg (by omega)]
  · rw [List.getElem?_append_right (by omega), hl1]
    by_cases hi2 : i - doff < n
    · rw [List.getElem?_append_left (by omega), List.getElem?_take_of_lt hi2,
        List.getElem?_drop, if_pos (by omega)]
    · rw [List.getElem?_append_right (by omega), hl2, List.getElem?_drop, if_neg (by omega)]
      congr 1
      omega

theorem map_getD_range (l : List Nat) (n : Nat) (hn : n ≤ l.length) :
    (List.range n).map (fun j => l.getD j 0) = l.take n := by
  apply List.ext_getElem?
  intro i
  rw [List.getElem?_map]
  by_cases hi : i < n
  · have hil : i < l.length := by omega
    rw [List.getElem?_range hi, List.getElem?_take_of_lt hi, List.getElem?_eq_getElem hil]
    simp [List.getElem?_eq_getElem hil]
  · rw [List.getElem?_eq_none (by simp; omega), List.getElem?_eq_none (by simp; omega)]
    rfl

theorem take_map_range_append_getElem? (f : Nat → Nat) (c n : Nat) (hn : n ≤ c)
    (dst : List Nat) (i : Nat) :
    (((List.range c).map f).take n ++ dst.drop n)[i]?
      = if i < n then some (f i) else dst[i]? := by
  have hl : (((List.range c).map f).take n).length = n := by
    simp
    omega
  by_cases hi : i < n
  · rw [List.getElem?_append_left (by omega), List.getElem?_take_of_lt hi, List.getElem?_map,
      List.getElem?_range (by omega), if_pos hi]
    rfl
  · rw [List.getElem?_append_right (by omega), hl, List.getElem?_drop, if_neg hi]
    congr 1
    omega

/-! ## Bulk transfers on a well-formed state -/

/-- What `ring_buffer_num_items` returns on a well-formed state of capacity at
least 2. -/
theorem num_items_eq_bulk_count {rb : ring_buffer_t} {k : Nat} (wf : WF rb k) (hk : 1 ≤ k) :
    ring_buffer_num_items rb = .ok (bulk_count rb) := by
  obtain ⟨n, hn, hcases⟩ := num_items_cases wf hk
  rw [hn]
  congr 1
  have hms := wf.mask_succ
  obtain ⟨hk64, hmask, hh, ht, hlen⟩ := wf
  have h2 : 2 ≤ 2 ^ k := by
    calc 2 = 2 ^ 1 := by norm_num
      _ ≤ 2 ^ k := Nat.pow_le_pow_right (by norm_num) hk
  unfold bulk_count
  generalize rb.ctrl.head_index = h at *
  generalize rb.ctrl.tail_index = t at *
  generalize rb.ctrl.buffer_mask = m at *
  have hm : 0 < m := by omega
  have hhm : h ≤ m := by omega
  have htm : t ≤ m := by omega
  have eh : (h < m ∧ h % m = h) ∨ (h = m ∧ h % m = 0) := by
    rcases Nat.lt_or_ge h m with c | c
    · exact Or.inl ⟨c, Nat.mod_eq_of_lt c⟩
    · have : h = m := by omega
      exact Or.inr ⟨this, by rw [this, Nat.mod_self]⟩
  have et : (t < m ∧ t % m = t) ∨ (t = m ∧ t % m = 0) := by
    rcases Nat.lt_or_ge t m with c | c
    · exact Or.inl ⟨c, Nat.mod_eq_of_lt c⟩
    · have : t = m := by omega
      exact Or.inr ⟨this, by rw [this, Nat.mod_self]⟩
  rcases eh with ⟨a1, a2⟩ | ⟨a1, a2⟩ <;> rcases et with ⟨b1, b2⟩ | ⟨b1, b2⟩ <;>
  rw [a2, b2] <;>
  rcases mod_lt_two (h % m + m - t % m) m (by rw [a2, b2]; omega) with ⟨c1, c2⟩ | ⟨c1, c2⟩ <;>
  rw [a2, b2] at c1 c2 <;>
  rcases hcases with ⟨d1, d2, d3⟩ | ⟨d1, d2⟩ | ⟨d1, d2, d3⟩ | ⟨d1, d2⟩ <;> omega

theorem mod_mask_cases {x m : Nat} (hx : x ≤ m) :
    (x < m ∧ x % m = x) ∨ (x = m ∧ x % m = 0) := by
  rcases Nat.lt_or_ge x m with c | c
  · exact Or.inl ⟨c, Nat.mod_eq_of_lt c⟩
  · have : x = m := by omega
    exact Or.inr ⟨this, by rw [this, Nat.mod_self]⟩

theorem bulk_count_lt {rb : ring_buffer_t} {k : Nat} (wf : WF rb k) (hk : 1 ≤ k) :
    bulk_count rb < rb.ctrl.buffer_mask := by
  obtain ⟨hk64, hmask, hh, ht, hlen⟩ := wf
  have h2 : 2 ≤ 2 ^ k := by
    calc 2 = 2 ^ 1 := by norm_num
      _ ≤ 2 ^ k := Nat.pow_le_pow_right (by norm_num) hk
  unfold bulk_count
  exact Nat.mod_lt _ (by omega)

/-- An accepted `ring_buffer_memcpy`: the state it returns, slot by slot. -/
theorem memcpy_accept {rb : ring_buffer_t} {k : Nat} (wf : WF rb k) (hk : 1 ≤ k)
    (data : List Nat) (size : Nat) (hsz : 1 ≤ size) (hdata : size ≤ data.length)
    (hroom : size ≤ rb.ctrl.buffer_mask - bulk_count rb) :
    ∃ rb', ring_buffer_memcpy rb data size = .ok (rb', size) ∧ WF rb' k ∧
      rb'.ctrl.tail_index = rb.ctrl.tail_index ∧
      rb'.ctrl.head_index % rb.ctrl.buffer_mask
        = (rb.ctrl.head_index % rb.ctrl.buffer_mask + size) % rb.ctrl.buffer_mask ∧
      ∀ i, rb'.buffer[i]? =
        if i < rb.ctrl.buffer_mask ∧
            (i + rb.ctrl.buffer_mask - rb.ctrl.head_index % rb.ctrl.buffer_mask)
              % rb.ctrl.buffer_mask < size
        then data[(i + rb.ctrl.buffer_mask - rb.ctrl.head_index % rb.ctrl.buffer_mask)
              % rb.ctrl.buffer_mask]?
        else rb.buffer[i]? := by
  have hcap := wf.cap_le
  have hms := wf.mask_succ
  have hcl := bulk_count_lt wf hk
  have hni := num_items_eq_bulk_count wf hk
  obtain ⟨hk64, hmask, hh, ht, hlen⟩ := id wf
  have hm63 : rb.ctrl.buffer_mask < 2 ^ 63 := by omega
  have hav : size_sub rb.ctrl.buffer_mask (bulk_count rb)
      = rb.ctrl.buffer_mask - bulk_count rb := size_sub_eq_of_le (by omega) (by omega)
  have hfc : size_sub rb.ctrl.buffer_mask rb.ctrl.head_index
      = rb.ctrl.buffer_mask - rb.ctrl.head_index := size_sub_eq_of_le (by omega) (by omega)
  have hbw : (if size > rb.ctrl.buffer_mask - bulk_count rb
      then rb.ctrl.buffer_mask - bulk_count rb else size) = size := if_neg (by omega)
  have hrej : ¬ (rb.ctrl.buffer_mask - bulk_count rb < size) := by omega
  unfold ring_buffer_memcpy
  rw [if_neg (by omega)]
  simp only [hni, bind, Except.bind, pure, Except.pure, hav, hfc, hbw, hrej, if_false]
  by_cases hw : size ≤ rb.ctrl.buffer_mask - rb.ctrl.head_index
  · rw [if_pos hw, memcpy_ok (by omega) (by omega)]
    simp only []
    rw [wf.and_mask, size_add_eq (by omega), Nat.mod_eq_of_lt (by omega)]
    refine ⟨_, rfl, ⟨hk64, hmask, by simp only []; omega, ht, ?_⟩, rfl, ?_, ?_⟩
    · simp only []
      rw [blit_length _ _ _ _ _ (by omega) (by omega)]
      exact hlen
    · simp only []
      rw [Nat.mod_eq_of_lt (show rb.ctrl.head_index < rb.ctrl.buffer_mask by omega)]
    · intro i
      simp only []
      rw [blit_getElem? _ _ _ _ _ _ (by omega) (by omega),
        Nat.mod_eq_of_lt (show rb.ctrl.head_index < rb.ctrl.buffer_mask by omega)]
      generalize rb.ctrl.buffer_mask = m at *
      generalize rb.ctrl.head_index = h at *
      by_cases hi : i < m
      · rcases mod_lt_two (i + m - h) m (by omega) with ⟨c1, c2⟩ | ⟨c1, c2⟩
        · rw [c2, if_neg (by omega), if_neg (by omega)]
        · rw [c2]
          by_cases hin : i < h + size
          · rw [if_pos (by omega), if_pos (by omega)]
            congr 1
            omega
          · rw [if_neg (by omega), if_neg (by omega)]
      · rw [if_neg (by omega), if_neg (by omega)]
  · have hl1 : (rb.buffer.take rb.ctrl.head_index
        ++ (data.drop 0).take (rb.ctrl.buffer_mask - rb.ctrl.head_index)
        ++ rb.buffer.drop (rb.ctrl.head_index
            + (rb.ctrl.buffer_mask - rb.ctrl.head_index))).length = rb.buffer.length :=
      blit_length _ _ _ _ _ (by omega) (by omega)
    rw [if_neg hw, memcpy_ok (by omega) (by omega)]
    simp only []
    rw [memcpy_ok (by rw [hl1]; omega) (by omega)]
    simp only []
    have e1 : size_add rb.ctrl.head_index size = rb.ctrl.head_index + size :=
      size_add_eq (by omega)
    rw [wf.and_mask, e1, size_add_eq (by omega)]
    have hhead : (rb.ctrl.head_index + size + 1) % 2 ^ k
        = rb.ctrl.head_index + size - rb.ctrl.buffer_mask := by
      rcases mod_lt_two (rb.ctrl.head_index + size + 1) (2 ^ k) (by omega)
        with ⟨c1, c2⟩ | ⟨c1, c2⟩ <;> omega
    rw [hhead]
    refine ⟨_, rfl, ⟨hk64, hmask, by simp only []; omega, ht, ?_⟩, rfl, ?_, ?_⟩
    · simp only []
      rw [blit_length _ _ _ _ _ (by rw [hl1]; omega) (by omega), hl1]
      exact hlen
    · simp only []
      generalize rb.ctrl.buffer_mask = m at *
      generalize rb.ctrl.head_index = h at *
      have hm : 0 < m := by omega
      rcases mod_mask_cases (show h ≤ m by omega) with ⟨a1, a2⟩ | ⟨a1, a2⟩
      · rw [a2]
        rcases mod_lt_two (h + size) m (by omega) with ⟨c1, c2⟩ | ⟨c1, c2⟩
        · omega
        · rw [c2, Nat.mod_eq_of_lt (by omega)]
      · rw [a2, a1, Nat.zero_add]
        congr 1
        omega
    · intro i
      simp only []
      rw [blit_getElem? _ _ _ _ _ _ (by rw [hl1]; omega) (by omega),
        blit_getElem? _ _ _ _ _ _ (by omega) (by omega)]
      generalize rb.ctrl.buffer_mask = m at *
      generalize rb.ctrl.head_index = h at *
      have hm : 0 < m := by omega
      by_cases hi : i < m
      · rcases mod_mask_cases (show h ≤ m by omega) with ⟨a1, a2⟩ | ⟨a1, a2⟩
        · rw [a2]
          rcases mod_lt_two (i + m - h) m (by omega) with ⟨c1, c2⟩ | ⟨c1, c2⟩
          · rw [c2]
            by_cases hin : i < size - (m - h)
            · rw [if_pos (by omega), if_pos (by omega)]
              congr 1
              omega
            · rw [if_neg (by omega), if_neg (by omega), if_neg (by omega)]
          · rw [c2, if_neg (by omega), if_pos (by omega), if_pos (by omega)]
            congr 1
            omega
        · simp only [a2, Nat.sub_zero, Nat.add_mod_right, Nat.mod_eq_of_lt hi]
          by_cases hin : i < size
          · rw [if_pos (by omega), if_pos (by omega)]
            congr 1
            omega
          · rw [if_neg (by omega), if_neg (by omega), if_neg (by omega)]
      · rw [if_neg (by omega), if_neg (by omega), if_neg (by omega)]


/-- A `ring_buffer_memcpy` that asks for more than the space the code computes
is rejected whole. -/
theorem memcpy_reject {rb : ring_buffer_t} {k : Nat} (wf : WF rb k) (hk : 1 ≤ k)
    (data : List Nat) (size : Nat)
    (hroom : rb.ctrl.buffer_mask - bulk_count rb < size) :
    ring_buffer_memcpy rb data size = .ok (rb, 0) := by
  have hcap := wf.cap_le
  have hcl := bulk_count_lt wf hk
  have hni := num_items_eq_bulk_count wf hk
  obtain ⟨hk64, hmask, hh, ht, hlen⟩ := id wf
  have hav : size_sub rb.ctrl.buffer_mask (bulk_count rb)
      = rb.ctrl.buffer_mask - bulk_count rb := size_sub_eq_of_le (by omega) (by omega)
  unfold ring_buffer_memcpy
  rw [if_neg (by omega)]
  simp only [hni, bind, Except.bind, pure, Except.pure, hav, hroom, if_true]

theorem bulk_slot_eq (rb : ring_buffer_t) (j : Nat) :
    bulk_slot rb j = (rb.buffer[(rb.ctrl.tail_index % rb.ctrl.buffer_mask + j)
      % rb.ctrl.buffer_mask]?).getD 0 := by
  unfold bulk_slot
  rw [List.getD_eq_getElem?_getD]

/-- Strictly below the mask, an accepted `ring_buffer_memcpy` appends its
payload to the bytes the bulk operations hold. -/
theorem memcpy_contents {rb : ring_buffer_t} {k : Nat} (wf : WF rb k) (hk : 1 ≤ k)
    (data : List Nat) (size : Nat) (hsz : 1 ≤ size) (hdata : size ≤ data.length)
    (hroom : bulk_count rb + size < rb.ctrl.buffer_mask) :
    ∃ rb', ring_buffer_memcpy rb data size = .ok (rb', size) ∧ WF rb' k ∧
      bulk_contents rb' = bulk_contents rb ++ data.take size := by
  obtain ⟨rb', heq, wf', htail, hhead, hpt⟩ :=
    memcpy_accept wf hk data size hsz hdata (by omega)
  refine ⟨rb', heq, wf', ?_⟩
  have hm' : rb'.ctrl.buffer_mask = rb.ctrl.buffer_mask := by
    rw [wf'.2.1, wf.2.1]
  obtain ⟨hk64, hmask, hh, ht, hlen⟩ := id wf
  have h2 : 2 ≤ 2 ^ k := by
    calc 2 = 2 ^ 1 := by norm_num
      _ ≤ 2 ^ k := Nat.pow_le_pow_right (by norm_num) hk
  have hm : 0 < rb.ctrl.buffer_mask := by omega
  have ha := Nat.mod_lt rb.ctrl.head_index hm
  have hb := Nat.mod_lt rb.ctrl.tail_index hm
  have hcount : bulk_count rb' = bulk_count rb + size := by
    unfold bulk_count at hroom ⊢
    rw [hm', htail, hhead]
    generalize rb.ctrl.buffer_mask = m at *
    generalize rb.ctrl.head_index % m = a at *
    generalize rb.ctrl.tail_index % m = b at *
    rcases mod_lt_two (a + m - b) m (by omega) with ⟨c1, c2⟩ | ⟨c1, c2⟩ <;>
    rcases mod_lt_two (a + size) m (by omega) with ⟨d1, d2⟩ | ⟨d1, d2⟩ <;>
    rcases mod_lt_two ((a + size) % m + m - b) m (by omega) with ⟨e1, e2⟩ | ⟨e1, e2⟩ <;>
    omega
  unfold bulk_contents
  rw [hcount, List.range_add, List.map_append, List.map_map]
  congr 1
  · apply List.map_congr_left
    intro j hj
    have hj' : j < bulk_count rb := List.mem_range.mp hj
    rw [bulk_slot_eq, bulk_slot_eq, hm', htail, hpt]
    unfold bulk_count at hroom hj'
    generalize rb.ctrl.buffer_mask = m at *
    generalize rb.ctrl.head_index % m = a at *
    generalize rb.ctrl.tail_index % m = b at *
    rw [if_neg]
    rcases mod_lt_two (a + m - b) m (by omega) with ⟨c1, c2⟩ | ⟨c1, c2⟩ <;>
    rcases mod_lt_two (b + j) m (by omega) with ⟨d1, d2⟩ | ⟨d1, d2⟩ <;>
    rcases mod_lt_two ((b + j) % m + m - a) m (by omega) with ⟨e1, e2⟩ | ⟨e1, e2⟩ <;>
    omega
  · rw [← map_getD_range data size hdata]
    apply List.map_congr_left
    intro j hj
    have hj' : j < size := List.mem_range.mp hj
    simp only [Function.comp]
    rw [bulk_slot_eq, hm', htail, hpt, List.getD_eq_getElem?_getD]
    unfold bulk_count at hroom ⊢
    generalize rb.ctrl.buffer_mask = m at *
    generalize rb.ctrl.head_index % m = a at *
    generalize rb.ctrl.tail_index % m = b at *
    have key : ((b + ((a + m - b) % m + j)) % m + m - a) % m = j ∧
        (b + ((a + m - b) % m + j)) % m < m := by
      rcases mod_lt_two (a + m - b) m (by omega) with ⟨c1, c2⟩ | ⟨c1, c2⟩ <;>
      rcases mod_lt_two (b + ((a + m - b) % m + j)) m (by omega) with ⟨d1, d2⟩ | ⟨d1, d2⟩ <;>
      rcases mod_lt_two ((b + ((a + m - b) % m + j)) % m + m - a) m (by omega)
        with ⟨e1, e2⟩ | ⟨e1, e2⟩ <;>
      omega
    rw [key.1, if_pos ⟨key.2, hj'⟩]

theorem getElem?_eq_some_getD (l : List Nat) (x : Nat) (h : x < l.length) :
    l[x]? = some ((l[x]?).getD 0) := by
  rw [List.getElem?_eq_getElem h]
  rfl

theorem bulk_count_of_empty (rb : ring_buffer_t)
    (he : rb.ctrl.head_index = rb.ctrl.tail_index) (hm : 0 < rb.ctrl.buffer_mask) :
    bulk_count rb = 0 := by
  unfold bulk_count
  rw [he]
  have hb := Nat.mod_lt rb.ctrl.tail_index hm
  have e : rb.ctrl.tail_index % rb.ctrl.buffer_mask + rb.ctrl.buffer_mask
      - rb.ctrl.tail_index % rb.ctrl.buffer_mask = rb.ctrl.buffer_mask := by omega
  rw [e, Nat.mod_self]

/-- The result of `ring_buffer_read_memcpy` on a well-formed state: it hands out
the `min len count` oldest bytes of the bulk view, in order. -/
theorem read_memcpy_step {rb : ring_buffer_t} {k : Nat} (wf : WF rb k) (hk : 1 ≤ k)
    (dst : List Nat) (len : Nat) (hdst : len ≤ dst.length) :
    ∃ rb', ring_buffer_read_memcpy rb dst len = .ok
        (rb', (bulk_contents rb).take (min len (bulk_count rb))
            ++ dst.drop (min len (bulk_count rb)),
          min len (bulk_count rb)) ∧
      WF rb' k ∧ rb'.ctrl.head_index = rb.ctrl.head_index ∧ rb'.buffer = rb.buffer ∧
      rb'.ctrl.tail_index % rb.ctrl.buffer_mask
        = (rb.ctrl.tail_index % rb.ctrl.buffer_mask + min len (bulk_count rb))
            % rb.ctrl.buffer_mask := by
  have hcap := wf.cap_le
  have hms := wf.mask_succ
  have hcl := bulk_count_lt wf hk
  have hni := num_items_eq_bulk_count wf hk
  obtain ⟨hk64, hmask, hh, ht, hlen⟩ := id wf
  have hm : 0 < rb.ctrl.buffer_mask := by omega
  have hzero : ∀ n, n = 0 →
      (bulk_contents rb).take n ++ dst.drop n = dst ∧
      rb.ctrl.tail_index % rb.ctrl.buffer_mask
        = (rb.ctrl.tail_index % rb.ctrl.buffer_mask + n) % rb.ctrl.buffer_mask := by
    intro n hn
    subst hn
    refine ⟨by simp, ?_⟩
    rw [Nat.add_zero, Nat.mod_mod]
  unfold ring_buffer_read_memcpy
  by_cases hl0 : len = 0
  · rw [if_pos hl0]
    have hmin : min len (bulk_count rb) = 0 := by omega
    rw [hmin]
    exact ⟨rb, by rw [(hzero 0 rfl).1], wf, rfl, rfl, (hzero 0 rfl).2⟩
  rw [if_neg hl0]
  by_cases he : rb.ctrl.head_index = rb.ctrl.tail_index
  · have hemp : ring_buffer_is_empty rb = true := by
      unfold ring_buffer_is_empty
      simp [he]
    have hmin : min len (bulk_count rb) = 0 := by
      rw [bulk_count_of_empty rb he hm]
      omega
    rw [if_pos hemp, hmin]
    exact ⟨rb, by rw [(hzero 0 rfl).1], wf, rfl, rfl, (hzero 0 rfl).2⟩
  have hemp : ¬ (ring_buffer_is_empty rb = true) := by
    unfold ring_buffer_is_empty
    simp [he]
  rw [if_neg hemp]
  have hfc : size_sub rb.ctrl.buffer_mask rb.ctrl.tail_index
      = rb.ctrl.buffer_mask - rb.ctrl.tail_index := size_sub_eq_of_le (by omega) (by omega)
  have hbr : (if len > bulk_count rb then bulk_count rb else len)
      = min len (bulk_count rb) := by
    split <;> omega
  simp only [hni, bind, Except.bind, pure, Except.pure, hfc, hbr]
  have hn1 : min len (bulk_count rb) ≤ bulk_count rb := Nat.min_le_right _ _
  have hn2 : min len (bulk_count rb) ≤ len := Nat.min_le_left _ _
  generalize min len (bulk_count rb) = n at *
  by_cases hw : n ≤ rb.ctrl.buffer_mask - rb.ctrl.tail_index
  · rw [if_pos hw, memcpy_ok (by omega) (by omega)]
    simp only []
    rw [wf.and_mask, size_add_eq (by omega), Nat.mod_eq_of_lt (by omega)]
    have hd : dst.take 0 ++ (rb.buffer.drop rb.ctrl.tail_index).take n ++ dst.drop (0 + n)
        = (bulk_contents rb).take n ++ dst.drop n := by
      apply List.ext_getElem?
      intro i
      rw [blit_getElem? _ _ _ _ _ _ (by omega) (by omega)]
      unfold bulk_contents
      rw [take_map_range_append_getElem? _ _ _ hn1]
      by_cases hi : i < n
      · rw [if_pos (by omega), if_pos hi, bulk_slot_eq,
          Nat.mod_eq_of_lt (show rb.ctrl.tail_index < rb.ctrl.buffer_mask by omega),
          Nat.mod_eq_of_lt (show rb.ctrl.tail_index + i < rb.ctrl.buffer_mask by omega),
          Nat.sub_zero]
        exact getElem?_eq_some_getD _ _ (by omega)
      · rw [if_neg (by omega), if_neg hi]
    rw [hd]
    refine ⟨_, rfl, ⟨hk64, hmask, hh, ?_, hlen⟩, rfl, rfl, ?_⟩
    · show rb.ctrl.tail_index + n < 2 ^ k
      omega
    · show (rb.ctrl.tail_index + n) % rb.ctrl.buffer_mask = _
      rw [Nat.mod_add_mod]
  · have hl1 : (dst.take 0
        ++ (rb.buffer.drop rb.ctrl.tail_index).take (rb.ctrl.buffer_mask - rb.ctrl.tail_index)
        ++ dst.drop (0 + (rb.ctrl.buffer_mask - rb.ctrl.tail_index))).length = dst.length :=
      blit_length _ _ _ _ _ (by omega) (by omega)
    rw [if_neg hw, memcpy_ok (by omega) (by omega)]
    simp only []
    rw [memcpy_ok (by rw [hl1]; omega) (by omega)]
    simp only []
    have e1 : size_add rb.ctrl.tail_index n = rb.ctrl.tail_index + n :=
      size_add_eq (by omega)
    rw [wf.and_mask, e1, size_add_eq (by omega)]
    have htail : (rb.ctrl.tail_index + n + 1) % 2 ^ k
        = rb.ctrl.tail_index + n - rb.ctrl.buffer_mask := by
      rcases mod_lt_two (rb.ctrl.tail_index + n + 1) (2 ^ k) (by omega)
        with ⟨c1, c2⟩ | ⟨c1, c2⟩ <;> omega
    rw [htail]
    have hd : (dst.take 0
          ++ (rb.buffer.drop rb.ctrl.tail_index).take
              (rb.ctrl.buffer_mask - rb.ctrl.tail_index)
          ++ dst.drop (0 + (rb.ctrl.buffer_mask - rb.ctrl.tail_index))).take
            (rb.ctrl.buffer_mask - rb.ctrl.tail_index)
          ++ (rb.buffer.drop 0).take (n - (rb.ctrl.buffer_mask - rb.ctrl.tail_index))
          ++ (dst.take 0
            ++ (rb.buffer.drop rb.ctrl.tail_index).take
                (rb.ctrl.buffer_mask - rb.ctrl.tail_index)
            ++ dst.drop (0 + (rb.ctrl.buffer_mask - rb.ctrl.tail_index))).drop
              (rb.ctrl.buffer_mask - rb.ctrl.tail_index
                + (n - (rb.ctrl.buffer_mask - rb.ctrl.tail_index)))
        = (bulk_contents rb).take n ++ dst.drop n := by
      apply List.ext_getElem?
      intro i
      rw [blit_getElem? _ _ _ _ _ _ (by rw [hl1]; omega) (by omega),
        blit_getElem? _ _ _ _ _ _ (by omega) (by omega)]
      unfold bulk_contents
      rw [take_map_range_append_getElem? _ _ _ hn1]
      by_cases hi : i < n
      · rw [if_pos hi, bulk_slot_eq]
        generalize rb.ctrl.buffer_mask = m at *
        generalize rb.ctrl.tail_index = t at *
        rcases mod_mask_cases (show t ≤ m by omega) with ⟨a1, a2⟩ | ⟨a1, a2⟩
        · rw [a2]
          rcases mod_lt_two (t + i) m (by omega) with ⟨c1, c2⟩ | ⟨c1, c2⟩
          · rw [c2, if_neg (by omega), if_pos (by omega), Nat.sub_zero]
            exact getElem?_eq_some_getD _ _ (by omega)
          · rw [c2, if_pos (by omega)]
            have e : 0 + (i - (m - t)) = t + i - m := by omega
            rw [e]
            exact getElem?_eq_some_getD _ _ (by omega)
        · simp only [a2, Nat.zero_add]
          rw [Nat.mod_eq_of_lt (show i < m by omega), if_pos (by omega)]
          have e : i - (m - t) = i := by omega
          rw [e]
          exact getElem?_eq_some_getD _ _ (by omega)
      · rw [if_neg (by omega), if_neg (by omega), if_neg hi]
    rw [hd]
    refine ⟨_, rfl, ⟨hk64, hmask, hh, ?_, hlen⟩, rfl, rfl, ?_⟩
    · show rb.ctrl.tail_index + n - rb.ctrl.buffer_mask < 2 ^ k
      omega
    · show (rb.ctrl.tail_index + n - rb.ctrl.buffer_mask) % rb.ctrl.buffer_mask = _
      rw [Nat.mod_add_mod, ← Nat.mod_eq_sub_mod (by omega)]

/-! ## Sequences of bulk transfers -/

theorem bulk_contents_length (rb : ring_buffer_t) :
    (bulk_contents rb).length = bulk_count rb := by
  simp [bulk_contents]

/-- After `ring_buffer_read_memcpy` has handed out `n` bytes, the bulk view
holds the remaining ones. -/
theorem read_contents {rb rb' : ring_buffer_t} {k : Nat} (wf : WF rb k) (wf' : WF rb' k)
    (hk : 1 ≤ k) (n : Nat) (hn : n ≤ bulk_count rb)
    (hhead : rb'.ctrl.head_index = rb.ctrl.head_index) (hbuf : rb'.buffer = rb.buffer)
    (htail : rb'.ctrl.tail_index % rb.ctrl.buffer_mask
      = (rb.ctrl.tail_index % rb.ctrl.buffer_mask + n) % rb.ctrl.buffer_mask) :
    bulk_contents rb' = (bulk_contents rb).drop n := by
  have hm' : rb'.ctrl.buffer_mask = rb.ctrl.buffer_mask := by
    rw [wf'.2.1, wf.2.1]
  obtain ⟨hk64, hmask, hh, ht, hlen⟩ := id wf
  have h2 : 2 ≤ 2 ^ k := by
    calc 2 = 2 ^ 1 := by norm_num
      _ ≤ 2 ^ k := Nat.pow_le_pow_right (by norm_num) hk
  have hm : 0 < rb.ctrl.buffer_mask := by omega
  have ha := Nat.mod_lt rb.ctrl.head_index hm
  have hb := Nat.mod_lt rb.ctrl.tail_index hm
  have hcount : bulk_count rb' = bulk_count rb - n := by
    unfold bulk_count at hn ⊢
    rw [hm', htail, hhead]
    generalize rb.ctrl.buffer_mask = m at *
    generalize rb.ctrl.head_index % m = a at *
    generalize rb.ctrl.tail_index % m = b at *
    rcases mod_lt_two (a + m - b) m (by omega) with ⟨c1, c2⟩ | ⟨c1, c2⟩ <;>
    rcases mod_lt_two (b + n) m (by omega) with ⟨d1, d2⟩ | ⟨d1, d2⟩ <;>
    rcases mod_lt_two (a + m - (b + n) % m) m (by omega) with ⟨e1, e2⟩ | ⟨e1, e2⟩ <;>
    omega
  have hsplit : bulk_count rb = n + (bulk_count rb - n) := by omega
  unfold bulk_contents
  rw [hcount]
  conv_rhs => rw [hsplit, List.range_add, List.map_append]
  rw [List.drop_left' (by simp), List.map_map]
  apply List.map_congr_left
  intro j hj
  have hj' : j < bulk_count rb - n := List.mem_range.mp hj
  simp only [Function.comp]
  rw [bulk_slot_eq, bulk_slot_eq, hm', htail, hbuf, Nat.mod_add_mod, Nat.add_assoc]

theorem run_bulk_ops_sim {k : Nat} (hk : 1 ≤ k) (ops : List BulkOp) :
    ∀ (rb : ring_buffer_t), WF rb k →
      bulk_below (2 ^ k - 1) (bulk_count rb) ops = true →
      ∃ rb', run_bulk_ops rb ops = .ok (rb', bulk_model (2 ^ k - 1) (bulk_contents rb) ops) ∧
        WF rb' k := by
  induction ops with
  | nil =>
    intro rb wf _
    exact ⟨rb, rfl, wf⟩
  | cons op ops ih =>
    intro rb wf hbelow
    have hmask := wf.2.1
    have hcl := bulk_count_lt wf hk
    cases op with
    | write data =>
      simp only [bulk_below] at hbelow
      by_cases hfit : bulk_count rb + data.length ≤ 2 ^ k - 1
      · rw [if_pos hfit] at hbelow
        simp only [Bool.and_eq_true, decide_eq_true_eq] at hbelow
        by_cases hz : data.length = 0
        · have hd : data = [] := List.length_eq_zero.mp hz
          subst hd
          have hrun : ring_buffer_memcpy rb [] 0 = .ok (rb, 0) := by
            unfold ring_buffer_memcpy
            simp
          obtain ⟨rb', hrest, wf'⟩ := ih rb wf (by simpa using hbelow.2)
          refine ⟨rb', ?_, wf'⟩
          simp only [run_bulk_ops, List.length_nil, hrun, bind, Except.bind, pure, Except.pure,
            hrest, bulk_model, bulk_contents_length, Nat.add_zero, List.append_nil]
          rw [if_pos (by omega)]
        · obtain ⟨rb1, hrun, wf1, hcont⟩ := memcpy_contents wf hk data data.length
            (by omega) (Nat.le_refl _) (by omega)
          rw [List.take_length] at hcont
          have hc1 : bulk_count rb1 = bulk_count rb + data.length := by
            rw [← bulk_contents_length, hcont, List.length_append, bulk_contents_length]
          obtain ⟨rb', hrest, wf'⟩ := ih rb1 wf1 (by rw [hc1]; exact hbelow.2)
          refine ⟨rb', ?_, wf'⟩
          simp only [run_bulk_ops, hrun, bind, Except.bind, pure, Except.pure, hrest,
            bulk_model, bulk_contents_length]
          rw [if_pos hfit, hcont]
      · rw [if_neg hfit] at hbelow
        have hrun := memcpy_reject wf hk data data.length (by omega)
        obtain ⟨rb', hrest, wf'⟩ := ih rb wf hbelow
        refine ⟨rb', ?_, wf'⟩
        simp only [run_bulk_ops, hrun, bind, Except.bind, pure, Except.pure, hrest,
          bulk_model, bulk_contents_length]
        rw [if_neg hfit]
    | read len =>
      simp only [bulk_below] at hbelow
      obtain ⟨rb1, hrun, wf1, hhead, hbuf, htail⟩ :=
        read_memcpy_step wf hk (List.replicate len 0) len (by simp)
      have hcont := read_contents wf wf1 hk (min len (bulk_count rb))
        (Nat.min_le_right _ _) hhead hbuf htail
      have hc1 : bulk_count rb1 = bulk_count rb - min len (bulk_count rb) := by
        rw [← bulk_contents_length, hcont, List.length_drop, bulk_contents_length]
      obtain ⟨rb', hrest, wf'⟩ := ih rb1 wf1 (by rw [hc1]; exact hbelow)
      refine ⟨rb', ?_, wf'⟩
      simp only [run_bulk_ops, hrun, bind, Except.bind, pure, Except.pure, hrest,
        bulk_model, bulk_contents_length, hcont, List.drop_replicate]

/-- In the model nothing is lost, duplicated or reordered: the bytes held at
the start followed by the bytes written are the bytes read followed by the
bytes still held. -/
theorem bulk_model_conserves (limit : Nat) (ops : List BulkOp) :
    ∀ held : List Nat,
      held ++ bytes_written ops (bulk_model limit held ops)
        = bytes_read (bulk_model limit held ops) ++ bulk_held limit held ops := by
  induction ops with
  | nil =>
    intro held
    simp [bulk_model, bytes_written, bytes_read, bulk_held]
  | cons op ops ih =>
    intro held
    cases op with
    | write data =>
      by_cases hfit : held.length + data.length ≤ limit
      · simp only [bulk_model, bulk_held, if_pos hfit, bytes_written, bytes_read,
          List.take_length]
        rw [← List.append_assoc, ih]
      · simp only [bulk_model, bulk_held, if_neg hfit, bytes_written, bytes_read,
          List.take_zero, List.nil_append]
        exact ih held
    | read len =>
      simp only [bulk_model, bulk_held, bytes_written, bytes_read]
      have ht : (held.take (min len held.length)
          ++ List.replicate (len - min len held.length) 0).take (min len held.length)
          = held.take (min len held.length) := by
        rw [List.take_append_of_le_length (by simp)]
        simp
      rw [ht, List.append_assoc, ← ih, ← List.append_assoc, List.take_append_drop]

/-! ## Every operation stays in bounds -/

theorem queue_arr_loop_total {k : Nat} (data : List Nat) (n : Nat) :
    ∀ (rb : ring_buffer_t) (i : Nat), WF rb k → i + n ≤ data.length →
      ∃ rb', queue_arr_loop rb data i n = .ok rb' ∧ WF rb' k := by
  induction n with
  | zero =>
    intro rb i wf _
    exact ⟨rb, rfl, wf⟩
  | succ n ih =>
    intro rb i wf hlen
    have hi : i < data.length := by omega
    obtain ⟨rb', hrun, wf'⟩ := ih _ (i + 1) (queue_wf wf (data.get ⟨i, hi⟩)) (by omega)
    refine ⟨rb', ?_, wf'⟩
    simp only [queue_arr_loop, load, dif_pos hi, bind, Except.bind, queue_eq wf]
    exact hrun

theorem memcpy_total {rb : ring_buffer_t} {k : Nat} (wf : WF rb k) (hk : 1 ≤ k)
    (data : List Nat) :
    ∃ r, ring_buffer_memcpy rb data data.length = .ok r ∧ WF r.1 k := by
  by_cases hz : data.length = 0
  · refine ⟨(rb, 0), ?_, wf⟩
    unfold ring_buffer_memcpy
    rw [if_pos hz]
  · by_cases hroom : data.length ≤ rb.ctrl.buffer_mask - bulk_count rb
    · obtain ⟨rb', heq, wf', _⟩ :=
        memcpy_accept wf hk data data.length (by omega) (Nat.le_refl _) hroom
      exact ⟨_, heq, wf'⟩
    · exact ⟨_, memcpy_reject wf hk data data.length (by omega), wf⟩

theorem dequeue_total {rb : ring_buffer_t} {k : Nat} (wf : WF rb k) (d : Nat) :
    ∃ r, ring_buffer_dequeue rb d = .ok r ∧ WF r.1 k := by
  by_cases he : rb.ctrl.head_index = rb.ctrl.tail_index
  · exact ⟨_, dequeue_empty rb d he, wf⟩
  · exact ⟨_, dequeue_eq wf d he, dequeue_wf wf⟩

theorem tail_moved_wf {rb : ring_buffer_t} {k : Nat} (wf : WF rb k) (x : Nat) :
    WF { rb with ctrl := { rb.ctrl with tail_index := x % 2 ^ k } } k := by
  obtain ⟨hk64, hmask, hh, ht, hlen⟩ := wf
  exact ⟨hk64, hmask, hh, Nat.mod_lt _ (by omega), hlen⟩

theorem dequeue_arr_total {rb : ring_buffer_t} {k : Nat} (wf : WF rb k)
    (data : List Nat) (len : Nat) (hdata : len ≤ data.length) :
    ∃ r, ring_buffer_dequeue_arr rb data len = .ok r ∧ WF r.1 k := by
  unfold ring_buffer_dequeue_arr
  by_cases hemp : ring_buffer_is_empty rb = true
  · rw [if_pos hemp]
    exact ⟨_, rfl, wf⟩
  · rw [if_neg hemp, dequeue_arr_loop_eq len rb data 0 wf
      (by have := Nat.min_le_left len (occupied rb); omega)]
    exact ⟨_, rfl, tail_moved_wf wf _⟩

theorem read_memload_nowait_total {rb : ring_buffer_t} {k : Nat} (wf : WF rb k)
    (hk : 1 ≤ k) (len : Nat) :
    ∃ r, ring_buffer_read_memload_nowait rb len = .ok r ∧ WF r.1 k := by
  have hcap := wf.cap_le
  have hms := wf.mask_succ
  have hcl := bulk_count_lt wf hk
  have hni := num_items_eq_bulk_count wf hk
  obtain ⟨hk64, hmask, hh, ht, hlen⟩ := id wf
  unfold ring_buffer_read_memload_nowait
  by_cases hl0 : len = 0
  · rw [if_pos hl0]
    exact ⟨_, rfl, wf⟩
  rw [if_neg hl0]
  by_cases hemp : ring_buffer_is_empty rb = true
  · rw [if_pos hemp]
    exact ⟨_, rfl, wf⟩
  rw [if_neg hemp]
  have hfc : size_sub rb.ctrl.buffer_mask rb.ctrl.tail_index
      = rb.ctrl.buffer_mask - rb.ctrl.tail_index := size_sub_eq_of_le (by omega) (by omega)
  have hbr : (if len > bulk_count rb then bulk_count rb else len)
      = min len (bulk_count rb) := by
    split <;> omega
  simp only [hni, bind, Except.bind, pure, Except.pure, hfc, hbr]
  have hn1 : min len (bulk_count rb) ≤ bulk_count rb := Nat.min_le_right _ _
  generalize min len (bulk_count rb) = n at *
  by_cases hw : n ≤ rb.ctrl.buffer_mask - rb.ctrl.tail_index
  · rw [if_pos hw]
    unfold memload64
    rw [if_pos (by omega)]
    simp only []
    rw [wf.and_mask]
    exact ⟨_, rfl, tail_moved_wf wf _⟩
  · rw [if_neg hw]
    unfold memload64
    rw [if_pos (by omega)]
    simp only []
    rw [if_pos (by omega)]
    simp only []
    rw [wf.and_mask]
    exact ⟨_, rfl, tail_moved_wf wf _⟩

theorem read_memload_wait_total {rb : ring_buffer_t} {k : Nat} (wf : WF rb k)
    (hk : 1 ≤ k) (len : Nat) :
    (∃ r, ring_buffer_read_memload_wait rb len = .ok r ∧ WF r.1 k) ∨
      ring_buffer_read_memload_wait rb len = .error Fault.spins := by
  have hcap := wf.cap_le
  have hms := wf.mask_succ
  have hcl := bulk_count_lt wf hk
  have hni := num_items_eq_bulk_count wf hk
  obtain ⟨hk64, hmask, hh, ht, hlen⟩ := id wf
  unfold ring_buffer_read_memload_wait
  by_cases hl0 : len = 0
  · rw [if_pos hl0]
    exact Or.inl ⟨_, rfl, wf⟩
  rw [if_neg hl0]
  have hfc : size_sub rb.ctrl.buffer_mask rb.ctrl.tail_index
      = rb.ctrl.buffer_mask - rb.ctrl.tail_index := size_sub_eq_of_le (by omega) (by omega)
  have hbr : (if len > bulk_count rb then bulk_count rb else len)
      = min len (bulk_count rb) := by
    split <;> omega
  simp only [hni, bind, Except.bind, pure, Except.pure, hfc, hbr, throw, throwThe,
    MonadExceptOf.throw]
  by_cases hsp : bulk_count rb < len
  · rw [if_pos hsp]
    exact Or.inr rfl
  rw [if_neg hsp]
  left
  have hn1 : min len (bulk_count rb) ≤ bulk_count rb := Nat.min_le_right _ _
  generalize min len (bulk_count rb) = n at *
  by_cases hw : n ≤ rb.ctrl.buffer_mask - rb.ctrl.tail_index
  · rw [if_pos hw]
    unfold memload64
    rw [if_pos (by omega)]
    simp only []
    rw [wf.and_mask]
    exact ⟨_, rfl, tail_moved_wf wf _⟩
  · rw [if_neg hw]
    unfold memload64
    rw [if_pos (by omega)]
    simp only []
    rw [if_pos (by omega)]
    simp only []
    rw [wf.and_mask]
    exact ⟨_, rfl, tail_moved_wf wf _⟩

theorem peek_total {rb : ring_buffer_t} {k : Nat} (wf : WF rb k) (hk : 1 ≤ k)
    (d idx : Nat) :
    ∃ r, ring_buffer_peek rb d idx = .ok r ∧ r.1 = rb := by
  have hni := num_items_eq_bulk_count wf hk
  by_cases hidx : idx < bulk_count rb
  · exact ⟨_, peek_eq wf hk d _ idx hni hidx, rfl⟩
  · refine ⟨(rb, d, 0), ?_, rfl⟩
    unfold ring_buffer_peek
    simp only [hni, bind, Except.bind, pure, Except.pure]
    rw [if_pos (by omega)]

/-- One engine call on a well-formed state of capacity at least 2 either
returns a well-formed state or is the busy-wait that never returns. -/
theorem run_engine_op_safe {rb : ring_buffer_t} {k : Nat} (wf : WF rb k) (hk : 1 ≤ k)
    (op : EngineOp) :
    (∃ rb', run_engine_op rb op = .ok rb' ∧ WF rb' k) ∨
      run_engine_op rb op = .error Fault.spins := by
  cases op with
  | queue v => exact Or.inl ⟨_, queue_eq wf v, queue_wf wf v⟩
  | queue_arr data =>
    obtain ⟨rb', h, wf'⟩ := queue_arr_loop_total data data.length rb 0 wf (by omega)
    exact Or.inl ⟨rb', h, wf'⟩
  | memcpy data =>
    obtain ⟨r, h, wf'⟩ := memcpy_total wf hk data
    exact Or.inl ⟨r.1, by simp only [run_engine_op, h, bind, Except.bind, pure, Except.pure],
      wf'⟩
  | dequeue =>
    obtain ⟨r, h, wf'⟩ := dequeue_total wf 0
    exact Or.inl ⟨r.1, by simp only [run_engine_op, h, bind, Except.bind, pure, Except.pure],
      wf'⟩
  | dequeue_arr len =>
    obtain ⟨r, h, wf'⟩ := dequeue_arr_total wf (List.replicate len 0) len (by simp)
    exact Or.inl ⟨r.1, by simp only [run_engine_op, h, bind, Except.bind, pure, Except.pure],
      wf'⟩
  | read_memcpy len =>
    obtain ⟨rb', h, wf', _⟩ := read_memcpy_step wf hk (List.replicate len 0) len (by simp)
    exact Or.inl ⟨rb', by simp only [run_engine_op, h, bind, Except.bind, pure, Except.pure],
      wf'⟩
  | read_memload_wait len =>
    rcases read_memload_wait_total wf hk len with ⟨r, h, wf'⟩ | h
    · exact Or.inl ⟨r.1,
        by simp only [run_engine_op, h, bind, Except.bind, pure, Except.pure], wf'⟩
    · exact Or.inr (by simp only [run_engine_op, h, bind, Except.bind])
  | read_memload_nowait len =>
    obtain ⟨r, h, wf'⟩ := read_memload_nowait_total wf hk len
    exact Or.inl ⟨r.1, by simp only [run_engine_op, h, bind, Except.bind, pure, Except.pure],
      wf'⟩
  | peek idx =>
    obtain ⟨r, h, hr⟩ := peek_total wf hk 0 idx
    exact Or.inl ⟨r.1, by simp only [run_engine_op, h, bind, Except.bind, pure, Except.pure],
      by rw [hr]; exact wf⟩

theorem run_engine_ops_safe {k : Nat} (hk : 1 ≤ k) (ops : List EngineOp) :
    ∀ (rb : ring_buffer_t), WF rb k →
      (∃ rb', run_engine_ops rb ops = .ok rb' ∧ WF rb' k) ∨
        run_engine_ops rb ops = .error Fault.spins := by
  induction ops with
  | nil =>
    intro rb wf
    exact Or.inl ⟨rb, rfl, wf⟩
  | cons op ops ih =>
    intro rb wf
    rcases run_engine_op_safe wf hk op with ⟨rb1, h1, wf1⟩ | h1
    · rcases ih rb1 wf1 with ⟨rb', h2, wf'⟩ | h2
      · exact Or.inl ⟨rb', by simp only [run_engine_ops, h1, bind, Except.bind, h2], wf'⟩
      · exact Or.inr (by simp only [run_engine_ops, h1, bind, Except.bind, h2])
    · exact Or.inr (by simp only [run_engine_ops, h1, bind, Except.bind])

/-! ## Initialisation check and teardown -/

theorem testBit_of_mem_range {x k : Nat} (h1 : 2 ^ k ≤ x) (h2 : x < 2 ^ (k + 1)) :
    x.testBit k = true := by
  have e : x = 2 ^ k + (x - 2 ^ k) := by omega
  have hlt : x - 2 ^ k < 2 ^ k := by
    rw [Nat.pow_succ] at h2
    omega
  rw [e, Nat.testBit_two_pow_add_eq, Nat.testBit_lt_two_pow hlt]
  rfl

/-- What `RING_BUFFER_IS_POWER_OF_TWO` accepts among the values of `size_t`:
the powers of two, and 0. -/
theorem is_power_of_two_iff (n : Nat) (hn : n < 2 ^ 64) :
    RING_BUFFER_IS_POWER_OF_TWO n = true ↔ n = 0 ∨ ∃ k, n = 2 ^ k := by
  constructor
  · intro h
    by_cases h0 : n = 0
    · exact Or.inl h0
    · right
      unfold RING_BUFFER_IS_POWER_OF_TWO at h
      rw [beq_iff_eq, size_sub_eq_of_le (by omega) hn] at h
      have hlo := Nat.pow_log_le_self 2 h0
      have hhi := Nat.lt_pow_succ_log_self (by norm_num : 1 < 2) n
      refine ⟨Nat.log 2 n, ?_⟩
      by_contra hne
      have h1 : 2 ^ Nat.log 2 n ≤ n - 1 := by omega
      have t1 := testBit_of_mem_range hlo hhi
      have t2 := testBit_of_mem_range h1 (by omega)
      have t3 : (n &&& (n - 1)).testBit (Nat.log 2 n) = true := by
        rw [Nat.testBit_and, t1, t2]
        rfl
      rw [h] at t3
      simp at t3
  · rintro (h0 | ⟨k, hk⟩)
    · subst h0
      decide
    · subst hk
      have hk64 : k < 64 := by
        by_contra hge
        have : (2 : Nat) ^ 64 ≤ 2 ^ k := Nat.pow_le_pow_right (by norm_num) (by omega)
        omega
      exact is_power_of_two_pow hk64

/-- On a well-formed state `ring_buffer_deinit` returns and leaves the last
slot of the slot array as it was: `memset` is given `buffer_mask` bytes. -/
theorem deinit_last_slot {rb : ring_buffer_t} {k : Nat} (wf : WF rb k) :
    ∃ rb', ring_buffer_deinit rb = .ok rb' ∧
      rb'.buffer.getD rb.ctrl.buffer_mask 0 = rb.buffer.getD rb.ctrl.buffer_mask 0 := by
  have hms := wf.mask_succ
  obtain ⟨hk64, hmask, hh, ht, hlen⟩ := wf
  unfold ring_buffer_deinit memset
  rw [if_pos (by omega)]
  refine ⟨_, rfl, ?_⟩
  show (List.replicate rb.ctrl.buffer_mask 0 ++ rb.buffer.drop rb.ctrl.buffer_mask).getD
    rb.ctrl.buffer_mask 0 = _
  rw [List.getD_eq_getElem?_getD, List.getD_eq_getElem?_getD,
    List.getElem?_append_right (by simp), List.getElem?_drop]
  simp

/-! ## Claims -/

/-- C1. FIFO for the byte-wise primitives: on a buffer initialised by
`ring_buffer_init` with capacity `2 ^ k >= 2`, every interleaving of
`ring_buffer_queue` and `ring_buffer_dequeue` calls that never holds more than
`capacity_mask` bytes runs without fault, and the flags and bytes its dequeue
calls produce are those of the FIFO model: flag 1 with the oldest byte not yet
dequeued while a byte is held, flag 0 while none is.  (Capacity 1, `k = 0`, is
covered as well: there the bound admits no enqueue at all.) -/
theorem C1_fifo_byte_wise (b0 : ring_buffer_t) (k pattern : Nat) (ops : List ByteOp)
    (hk : k < 64) (hlen : b0.buffer.length = 2 ^ k)
    (hcap : within_capacity (2 ^ k - 1) 0 ops = true) :
    ∃ rb rb', ring_buffer_init b0 (2 ^ k) pattern = .ok rb ∧
      run_byte_ops rb ops = .ok (rb', fifo_model [] ops) := by
  obtain ⟨rb, hinit, wf, hh, ht, _⟩ := init_wf b0 pattern hk hlen
  have he : rb.ctrl.head_index = rb.ctrl.tail_index := by rw [hh, ht]
  have ho : occupied rb = 0 := (occupied_eq_zero_iff wf).mpr he
  obtain ⟨rb', hrun, _, _⟩ := run_byte_ops_sim ops rb wf (by rw [ho]; exact hcap)
  rw [contents_of_empty wf he] at hrun
  exact ⟨rb, rb', hinit, hrun⟩

/-- C1 at capacity 8 with seven enqueues (the usable capacity), nine dequeues
and a wrap of both indices. -/
theorem C1_fifo_byte_wise_witness :
    within_capacity (2 ^ 3 - 1) 0
        ((List.range' 1 7).map ByteOp.queue ++ List.replicate 8 ByteOp.dequeue ++
          [ByteOp.queue 8, ByteOp.queue 9, ByteOp.dequeue]) = true ∧
      fifo_model []
        ((List.range' 1 7).map ByteOp.queue ++ List.replicate 8 ByteOp.dequeue ++
          [ByteOp.queue 8, ByteOp.queue 9, ByteOp.dequeue])
        = [(1, 1), (1, 2), (1, 3), (1, 4), (1, 5), (1, 6), (1, 7), (0, 0), (1, 8)] ∧
      ∃ rb rb', ring_buffer_init fresh8 (2 ^ 3) 0 = .ok rb ∧
        run_byte_ops rb
          ((List.range' 1 7).map ByteOp.queue ++ List.replicate 8 ByteOp.dequeue ++
            [ByteOp.queue 8, ByteOp.queue 9, ByteOp.dequeue])
          = .ok (rb', fifo_model []
            ((List.range' 1 7).map ByteOp.queue ++ List.replicate 8 ByteOp.dequeue ++
              [ByteOp.queue 8, ByteOp.queue 9, ByteOp.dequeue])) :=
  ⟨by decide, by decide,
    C1_fifo_byte_wise fresh8 3 0 _ (by decide) (by decide) (by decide)⟩

/-- C2, at the input of the spec's scenario: after `ring_buffer_init` with
capacity 32, `ring_buffer_memcpy` of the 31-byte payload returns 31, and the
following `ring_buffer_read_memcpy` with `len = 31` returns 0 and delivers
nothing (the destination is left as it was, the tail stays at 0). -/
theorem C2_bulk_round_trip_full_payload :
    (do
      let rb ← ring_buffer_init fresh32 32 0
      let w ← ring_buffer_memcpy rb payload31 31
      let r ← ring_buffer_read_memcpy w.1 (List.replicate 31 0) 31
      pure (w.2, w.1.ctrl.head_index, r.2.2, r.2.1, r.1.ctrl.tail_index))
      = .ok (31, 31, 0, List.replicate 31 0, 0) := by
  decide

/-- C3, at the input of the spec's scenario: after `ring_buffer_init` with
capacity 32 and a 31-byte `ring_buffer_memcpy`, `ring_buffer_is_full` holds and
the occupied count is 31, so no space is left; a further `ring_buffer_memcpy`
of one byte returns 1, moves the head from 31 to 1 and overwrites slot 0, the
oldest unread byte. -/
theorem C3_bulk_write_on_full_buffer :
    (do
      let rb ← ring_buffer_init fresh32 32 0
      let w ← ring_buffer_memcpy rb payload31 31
      pure (ring_buffer_is_full w.1, occupied w.1, w.1.ctrl.head_index, w.1.buffer.head?))
      = .ok (true, 31, 31, some 1) ∧
    (do
      let rb ← ring_buffer_init fresh32 32 0
      let w ← ring_buffer_memcpy rb payload31 31
      let w2 ← ring_buffer_memcpy w.1 [77] 1
      pure (w2.2, w2.1.ctrl.head_index, w2.1.buffer.head?))
      = .ok (1, 1, some 77) := by
  decide

/-- C4, evaluated: with capacity 8, after seven enqueues seven bytes are held
and `ring_buffer_num_items` returns 0; after seven enqueues, seven dequeues and
two more enqueues two bytes are held and it returns 1. -/
theorem C4_num_items_after_byte_ops :
    (do
      let rb ← ring_buffer_init fresh8 8 0
      let r ← run_byte_ops rb ((List.range' 1 7).map ByteOp.queue)
      let n ← ring_buffer_num_items r.1
      pure (occupied r.1, contents r.1, n))
      = .ok (7, [1, 2, 3, 4, 5, 6, 7], 0) ∧
    (do
      let rb ← ring_buffer_init fresh8 8 0
      let r ← run_byte_ops rb ((List.range' 1 7).map ByteOp.queue ++
        List.replicate 7 ByteOp.dequeue ++ [ByteOp.queue 8, ByteOp.queue 9])
      let n ← ring_buffer_num_items r.1
      pure (occupied r.1, contents r.1, n))
      = .ok (2, [8, 9], 1) := by
  decide

/-- C5, evaluated: with capacity 8, after seven enqueues (head 7, tail 0)
`ring_buffer_is_empty` returns false while `ring_buffer_num_items` returns 0. -/
theorem C5_not_empty_but_zero_items :
    (do
      let rb ← ring_buffer_init fresh8 8 0
      let r ← run_byte_ops rb ((List.range' 1 7).map ByteOp.queue)
      let n ← ring_buffer_num_items r.1
      pure (r.1.ctrl.head_index, r.1.ctrl.tail_index, ring_buffer_is_empty r.1, n))
      = .ok (7, 0, false, 0) := by
  decide

/-- C6, evaluated: with capacity 8 (mask 7), after seven enqueues
`ring_buffer_is_full` returns true while `ring_buffer_num_items` returns 0, not
the mask. -/
theorem C6_full_but_zero_items :
    (do
      let rb ← ring_buffer_init fresh8 8 0
      let r ← run_byte_ops rb ((List.range' 1 7).map ByteOp.queue)
      let n ← ring_buffer_num_items r.1
      pure (r.1.ctrl.buffer_mask, ring_buffer_is_full r.1, n))
      = .ok (7, true, 0) := by
  decide

/-- C7. Peek agrees with dequeue: from `ring_buffer_init` with capacity
`2 ^ k >= 2`, any sequence of byte-wise queue/dequeue calls runs without fault,
`ring_buffer_num_items` then reports some `n`, and for every `idx < n`
`ring_buffer_peek(idx)` returns 1, yields the byte that the last of `idx + 1`
consecutive `ring_buffer_dequeue` calls from that state yields (which also
returns 1), and leaves the whole state (both indices, mask, every slot) as it
was. -/
theorem C7_peek_agrees_with_dequeue (b0 : ring_buffer_t) (k pattern : Nat)
    (ops : List ByteOp) (hk1 : 1 ≤ k) (hk : k < 64) (hlen : b0.buffer.length = 2 ^ k) :
    ∃ rb0 rb outs n, ring_buffer_init b0 (2 ^ k) pattern = .ok rb0 ∧
      run_byte_ops rb0 ops = .ok (rb, outs) ∧
      ring_buffer_num_items rb = .ok n ∧
      ∀ idx, idx < n → ∀ d, ∃ b rb',
        ring_buffer_peek rb d idx = .ok (rb, b, 1) ∧
        dequeue_last rb d idx = .ok (rb', b, 1) := by
  obtain ⟨rb0, hinit, wf0, _, _, _⟩ := init_wf b0 pattern hk hlen
  obtain ⟨rb, outs, hrun, wf⟩ := run_byte_ops_total ops rb0 wf0
  obtain ⟨n, hn, hle⟩ := num_items_le_occupied wf hk1
  refine ⟨rb0, rb, outs, n, hinit, hrun, hn, ?_⟩
  intro idx hidx d
  obtain ⟨rb', hdq⟩ := dequeue_last_eq idx rb d wf (by omega)
  exact ⟨slot_at rb idx, rb', peek_eq wf hk1 d n idx hn hidx, hdq⟩

/-- C7 at capacity 8 after five enqueues and two dequeues. -/
theorem C7_peek_agrees_with_dequeue_witness :
    (1 ≤ 3 ∧ 3 < 64 ∧ fresh8.buffer.length = 2 ^ 3) ∧
      ∃ rb0 rb outs n, ring_buffer_init fresh8 (2 ^ 3) 0 = .ok rb0 ∧
        run_byte_ops rb0 ((List.range' 1 5).map ByteOp.queue ++
          [ByteOp.dequeue, ByteOp.dequeue]) = .ok (rb, outs) ∧
        ring_buffer_num_items rb = .ok n ∧
        ∀ idx, idx < n → ∀ d, ∃ b rb',
          ring_buffer_peek rb d idx = .ok (rb, b, 1) ∧
          dequeue_last rb d idx = .ok (rb', b, 1) :=
  ⟨by decide,
    C7_peek_agrees_with_dequeue fresh8 3 0 _ (by decide) (by decide) (by decide)⟩

/-- C8. Single-writer-per-index frame, for every state and every argument:
whenever `ring_buffer_queue`, `ring_buffer_queue_arr` or `ring_buffer_memcpy`
returns, `tail_index` and `buffer_mask` are what they were; whenever
`ring_buffer_dequeue`, `ring_buffer_dequeue_arr`, `ring_buffer_read_memcpy`,
`ring_buffer_read_memload_nowait`, `ring_buffer_read_memload_wait` or
`ring_buffer_peek` returns, `head_index`, `buffer_mask` and the slot array are
what they were. -/
theorem C8_single_writer_frame (rb : ring_buffer_t) :
    (∀ v rb', ring_buffer_queue rb v = .ok rb' →
        rb'.ctrl.tail_index = rb.ctrl.tail_index ∧
        rb'.ctrl.buffer_mask = rb.ctrl.buffer_mask) ∧
    (∀ data size rb', ring_buffer_queue_arr rb data size = .ok rb' →
        rb'.ctrl.tail_index = rb.ctrl.tail_index ∧
        rb'.ctrl.buffer_mask = rb.ctrl.buffer_mask) ∧
    (∀ data size rb' n, ring_buffer_memcpy rb data size = .ok (rb', n) →
        rb'.ctrl.tail_index = rb.ctrl.tail_index ∧
        rb'.ctrl.buffer_mask = rb.ctrl.buffer_mask) ∧
    (∀ d rb' d' r, ring_buffer_dequeue rb d = .ok (rb', d', r) →
        rb'.ctrl.head_index = rb.ctrl.head_index ∧
        rb'.ctrl.buffer_mask = rb.ctrl.buffer_mask ∧ rb'.buffer = rb.buffer) ∧
    (∀ data len rb' data' r, ring_buffer_dequeue_arr rb data len = .ok (rb', data', r) →
        rb'.ctrl.head_index = rb.ctrl.head_index ∧
        rb'.ctrl.buffer_mask = rb.ctrl.buffer_mask ∧ rb'.buffer = rb.buffer) ∧
    (∀ dst len rb' dst' r, ring_buffer_read_memcpy rb dst len = .ok (rb', dst', r) →
        rb'.ctrl.head_index = rb.ctrl.head_index ∧
        rb'.ctrl.buffer_mask = rb.ctrl.buffer_mask ∧ rb'.buffer = rb.buffer) ∧
    (∀ len rb' r, ring_buffer_read_memload_nowait rb len = .ok (rb', r) →
        rb'.ctrl.head_index = rb.ctrl.head_index ∧
        rb'.ctrl.buffer_mask = rb.ctrl.buffer_mask ∧ rb'.buffer = rb.buffer) ∧
    (∀ len rb' r, ring_buffer_read_memload_wait rb len = .ok (rb', r) →
        rb'.ctrl.head_index = rb.ctrl.head_index ∧
        rb'.ctrl.buffer_mask = rb.ctrl.buffer_mask ∧ rb'.buffer = rb.buffer) ∧
    (∀ d idx rb' d' r, ring_buffer_peek rb d idx = .ok (rb', d', r) →
        rb'.ctrl.head_index = rb.ctrl.head_index ∧
        rb'.ctrl.buffer_mask = rb.ctrl.buffer_mask ∧ rb'.buffer = rb.buffer) := by
  refine ⟨?_, ?_, ?_, ?_, ?_, ?_, ?_, ?_, ?_⟩
  · intro v rb' h
    exact queue_frame h
  · intro data size rb' h
    exact queue_arr_loop_frame size rb rb' 0 h
  · intro data size rb' n h
    exact memcpy_frame h
  · intro d rb' d' r h
    exact dequeue_frame h
  · intro data len rb' data' r h
    exact dequeue_arr_frame h
  · intro dst len rb' dst' r h
    exact read_memcpy_frame h
  · intro len rb' r h
    exact read_memload_nowait_frame h
  · intro len rb' r h
    exact read_memload_wait_frame h
  · intro d idx rb' d' r h
    rw [peek_frame h]
    exact ⟨rfl, rfl, rfl⟩

/-- C8 on a state of capacity 8 whose head (1) lies below its tail (6): a
two-byte bulk write and a two-byte bulk read both return, and the frame holds
for the states they return. -/
theorem C8_single_writer_frame_witness :
    (ring_buffer_memcpy wrapped8 [21, 22] 2
        = .ok (⟨⟨1, 7, 6, 3⟩, [13, 21, 22, 0, 0, 0, 11, 12]⟩, 2) ∧
      (6 : Nat) = wrapped8.ctrl.tail_index ∧ (7 : Nat) = wrapped8.ctrl.buffer_mask) ∧
    (ring_buffer_read_memcpy wrapped8 [0, 0] 2
        = .ok (⟨⟨1, 7, 1, 1⟩, wrapped8.buffer⟩, [11, 13], 2) ∧
      (1 : Nat) = wrapped8.ctrl.head_index ∧ (7 : Nat) = wrapped8.ctrl.buffer_mask ∧
      wrapped8.buffer = wrapped8.buffer) :=
  ⟨⟨by decide,
      (C8_single_writer_frame wrapped8).2.2.1 [21, 22] 2
        ⟨⟨1, 7, 6, 3⟩, [13, 21, 22, 0, 0, 0, 11, 12]⟩ 2 (by decide)⟩,
    ⟨by decide,
      (C8_single_writer_frame wrapped8).2.2.2.2.2.1 [0, 0] 2
        ⟨⟨1, 7, 1, 1⟩, wrapped8.buffer⟩ [11, 13] 2 (by decide)⟩⟩

/-- C9. `ring_buffer_dequeue_arr(buffer, data, len)` on a state of
power-of-two capacity with both indices in range and an array `data` of at
least `len` bytes: it returns `count = min(len, held)` with
`held = (head_index - tail_index) mod (capacity_mask + 1)`, stores the `count`
oldest bytes in FIFO order into `data[0 .. count-1]` (the rest of `data` is
untouched), advances `tail_index` by `count` modulo `capacity_mask + 1` and
leaves everything else, `head_index` included, as it was; the bytes and the
final state are those of `count` successive `ring_buffer_dequeue` calls, each
returning 1. -/
theorem C9_dequeue_arr_iterates_dequeue (rb : ring_buffer_t) (k : Nat) (data : List Nat)
    (len : Nat) (wf : WF rb k) (hdata : len ≤ data.length) :
    ring_buffer_dequeue_arr rb data len = .ok
        ({ rb with ctrl := { rb.ctrl with
             tail_index := (rb.ctrl.tail_index + min len (occupied rb)) % 2 ^ k } },
         (contents rb).take (min len (occupied rb)) ++ data.drop (min len (occupied rb)),
         min len (occupied rb)) ∧
      run_byte_ops rb (List.replicate (min len (occupied rb)) ByteOp.dequeue) = .ok
        ({ rb with ctrl := { rb.ctrl with
             tail_index := (rb.ctrl.tail_index + min len (occupied rb)) % 2 ^ k } },
         ((contents rb).take (min len (occupied rb))).map (fun b => (1, b))) := by
  refine ⟨?_, run_dequeues_eq _ rb wf (Nat.min_le_right _ _)⟩
  unfold ring_buffer_dequeue_arr
  by_cases he : rb.ctrl.head_index = rb.ctrl.tail_index
  · have ho : occupied rb = 0 := (occupied_eq_zero_iff wf).mpr he
    have hemp : ring_buffer_is_empty rb = true := by
      unfold ring_buffer_is_empty
      simp [he]
    rw [if_pos hemp, ho, Nat.min_zero, tail_index_self wf]
    simp
  · have hemp : ¬ (ring_buffer_is_empty rb = true) := by
      unfold ring_buffer_is_empty
      simp [he]
    rw [if_neg hemp, dequeue_arr_loop_eq len rb data 0 wf
      (by have := Nat.min_le_left len (occupied rb); omega)]
    simp

/-- C9 on a state of capacity 8 that holds three bytes across the wrap, with
room for five bytes asked for. -/
theorem C9_dequeue_arr_iterates_dequeue_witness :
    (WF wrapped8 3 ∧ 5 ≤ [0, 0, 0, 0, 0].length) ∧ occupied wrapped8 = 3 ∧
      contents wrapped8 = [11, 12, 13] ∧
      ring_buffer_dequeue_arr wrapped8 [0, 0, 0, 0, 0] 5
        = .ok (⟨⟨1, 7, 1, 1⟩, wrapped8.buffer⟩, [11, 12, 13, 0, 0], 3) ∧
      (ring_buffer_dequeue_arr wrapped8 [0, 0, 0, 0, 0] 5 = .ok
        ({ wrapped8 with ctrl := { wrapped8.ctrl with
             tail_index := (wrapped8.ctrl.tail_index + min 5 (occupied wrapped8)) % 2 ^ 3 } },
         (contents wrapped8).take (min 5 (occupied wrapped8))
           ++ [0, 0, 0, 0, 0].drop (min 5 (occupied wrapped8)),
         min 5 (occupied wrapped8)) ∧
      run_byte_ops wrapped8 (List.replicate (min 5 (occupied wrapped8)) ByteOp.dequeue) = .ok
        ({ wrapped8 with ctrl := { wrapped8.ctrl with
             tail_index := (wrapped8.ctrl.tail_index + min 5 (occupied wrapped8)) % 2 ^ 3 } },
         ((contents wrapped8).take (min 5 (occupied wrapped8))).map (fun b => (1, b)))) :=
  ⟨⟨by decide, by decide⟩, by decide, by decide, by decide,
    C9_dequeue_arr_iterates_dequeue wrapped8 3 [0, 0, 0, 0, 0] 5 (by decide) (by decide)⟩

/-- C10. `ring_buffer_read_memcpy` on a state with `head_index == tail_index`
(any `len`), and on any state with `len == 0`, returns 0 and leaves the whole
state and the destination as they were. -/
theorem C10_read_memcpy_empty_or_zero (rb : ring_buffer_t) (dst : List Nat) (len : Nat)
    (h : rb.ctrl.head_index = rb.ctrl.tail_index ∨ len = 0) :
    ring_buffer_read_memcpy rb dst len = .ok (rb, dst, 0) := by
  unfold ring_buffer_read_memcpy ring_buffer_is_empty
  rcases h with h | h
  · by_cases hl : len = 0
    · rw [if_pos hl]
    · rw [if_neg hl, if_pos (by simp [h])]
  · rw [if_pos h]

/-- C10 on an empty state of capacity 8 whose indices sit at 5, asked for four
bytes. -/
theorem C10_read_memcpy_empty_or_zero_witness :
    ((⟨⟨1, 7, 5, 5⟩, [1, 2, 3, 4, 5, 6, 7, 8]⟩ : ring_buffer_t).ctrl.head_index
        = (⟨⟨1, 7, 5, 5⟩, [1, 2, 3, 4, 5, 6, 7, 8]⟩ : ring_buffer_t).ctrl.tail_index
        ∨ 4 = 0) ∧
      ring_buffer_read_memcpy ⟨⟨1, 7, 5, 5⟩, [1, 2, 3, 4, 5, 6, 7, 8]⟩ [9, 9, 9, 9] 4
        = .ok (⟨⟨1, 7, 5, 5⟩, [1, 2, 3, 4, 5, 6, 7, 8]⟩, [9, 9, 9, 9], 0) :=
  ⟨Or.inl rfl, C10_read_memcpy_empty_or_zero _ [9, 9, 9, 9] 4 (Or.inl rfl)⟩

/-- C11, evaluated at the spec's scenario: capacity 8, `head_index` and
`tail_index` at 5, payload `1, 2, 3, 4, 5`.  `ring_buffer_memcpy` returns 5 but
writes only two bytes at the end (slots 5 and 6), leaves slot 7 as it was (97)
and writes three bytes at the start (slots 0, 1, 2), ending with head 3;
`ring_buffer_queue_arr` on the same state and payload fills slots 5, 6, 7 and
then 0, 1, ending with head 2. -/
theorem C11_wrapping_bulk_write_split :
    ring_buffer_memcpy at5 [1, 2, 3, 4, 5] 5
        = .ok (⟨⟨1, 7, 5, 3⟩, [3, 4, 5, 93, 94, 1, 2, 97]⟩, 5) ∧
      ring_buffer_queue_arr at5 [1, 2, 3, 4, 5] 5
        = .ok ⟨⟨1, 7, 5, 2⟩, [4, 5, 92, 93, 94, 1, 2, 3]⟩ := by
  decide

/-- C12 as stated fails: on the full state of capacity 8 (head 7, tail 0)
`ring_buffer_queue(99)` does not write to `slot[tail_index]`; slot 0 keeps the
oldest unread byte 1 and the byte lands in slot 7. -/
theorem C12_queue_on_full_overwrites_tail_slot_false :
    ring_buffer_is_full full8 = true ∧
      ¬ (ring_buffer_queue full8 99 = .ok
          { ctrl := { full8.ctrl with head_index := 0 },
            buffer := full8.buffer.set full8.ctrl.tail_index 99 }) ∧
      ring_buffer_queue full8 99 = .ok ⟨⟨1, 7, 0, 0⟩, [1, 2, 3, 4, 5, 6, 7, 99]⟩ := by
  decide

/-- C12, amended. On every full state (capacity `2 ^ k >= 2`, indices in range)
`ring_buffer_queue(v)` does not reject and leaves `tail_index` and
`buffer_mask` unchanged; the one slot it writes is `slot[head_index]`, which
differs from `slot[tail_index]` and from every slot that holds an unread byte,
so `slot[tail_index]`, the byte the next dequeue would have returned, and all
other held bytes keep their values. -/
theorem C12_queue_on_full_buffer (rb : ring_buffer_t) (k v : Nat) (wf : WF rb k)
    (hk1 : 1 ≤ k) (hfull : ring_buffer_is_full rb = true) :
    ∃ rb', ring_buffer_queue rb v = .ok rb' ∧
      rb'.ctrl.tail_index = rb.ctrl.tail_index ∧
      rb'.ctrl.buffer_mask = rb.ctrl.buffer_mask ∧
      rb'.buffer = rb.buffer.set rb.ctrl.head_index v ∧
      rb.ctrl.head_index ≠ rb.ctrl.tail_index ∧
      (∀ i, i < occupied rb →
        (rb.ctrl.tail_index + i) % (rb.ctrl.buffer_mask + 1) ≠ rb.ctrl.head_index) ∧
      (∀ i, i ≠ rb.ctrl.head_index → rb'.buffer.getD i 0 = rb.buffer.getD i 0) := by
  refine ⟨_, queue_eq wf v, rfl, rfl, rfl, (full_head_succ wf hk1 hfull).2, ?_, ?_⟩
  · intro i hi
    have hms := wf.mask_succ
    obtain ⟨hk64, hmask, hh, ht, hlen⟩ := wf
    unfold occupied at hi
    rw [hms] at hi ⊢
    generalize 2 ^ k = c at *
    generalize rb.ctrl.head_index = h at *
    generalize rb.ctrl.tail_index = t at *
    rcases mod_lt_two (h + c - t) c (by omega) with ⟨b1, b2⟩ | ⟨b1, b2⟩ <;>
    rcases mod_lt_two (t + i) c (by omega) with ⟨c1, c2⟩ | ⟨c1, c2⟩ <;>
    omega
  · intro i hi
    simp [List.getElem?_set_ne (Ne.symm hi)]

/-- C12 (amended) on the full state of capacity 8 with head 7 and tail 0. -/
theorem C12_queue_on_full_buffer_witness :
    (WF full8 3 ∧ 1 ≤ 3 ∧ ring_buffer_is_full full8 = true) ∧
      ∃ rb', ring_buffer_queue full8 99 = .ok rb' ∧
        rb'.ctrl.tail_index = full8.ctrl.tail_index ∧
        rb'.ctrl.buffer_mask = full8.ctrl.buffer_mask ∧
        rb'.buffer = full8.buffer.set full8.ctrl.head_index 99 ∧
        full8.ctrl.head_index ≠ full8.ctrl.tail_index ∧
        (∀ i, i < occupied full8 →
          (full8.ctrl.tail_index + i) % (full8.ctrl.buffer_mask + 1)
            ≠ full8.ctrl.head_index) ∧
        (∀ i, i ≠ full8.ctrl.head_index → rb'.buffer.getD i 0 = full8.buffer.getD i 0) :=
  ⟨by decide, C12_queue_on_full_buffer full8 3 99 (by decide) (by decide) (by decide)⟩

/-- C13, evaluated: a control word initialised with pattern `0xF0` and then
initialised again with pattern `0x0F` reads back `0xFF`, not `0x0F`: the macro
`RING_BUFFER_CTRL_SET_PATTERN` keeps the old high byte and ORs the new pattern
into it. -/
theorem C13_pattern_after_second_init :
    (do
      let rb1 ← ring_buffer_init fresh8 8 0xF0
      let rb2 ← ring_buffer_init rb1 8 0x0F
      pure (RING_BUFFER_CTRL_GET_PATTERN rb1, RING_BUFFER_CTRL_GET_PATTERN rb2,
        rb2.ctrl.buffer_ctrl))
      = .ok (0xF0, 0xFF, 0xFF000001) := by
  decide

/-- C14, evaluated: `RING_BUFFER_IS_POWER_OF_TWO(0)` is true although 0 is no
power of two, so the assertion of `ring_buffer_init` passes for `buf_size = 0`
and the call returns with `buffer_mask = SIZE_MAX`. -/
theorem C14_zero_passes_power_of_two_check :
    RING_BUFFER_IS_POWER_OF_TWO 0 = true ∧ (∀ k : Nat, 2 ^ k ≠ 0) ∧
      ring_buffer_init fresh8 0 0
        = .ok ⟨⟨1, 2 ^ 64 - 1, 0, 0⟩, fresh8.buffer⟩ := by
  refine ⟨by decide, ?_, by decide⟩
  intro k
  exact Nat.pos_iff_ne_zero.mp (Nat.pos_pow_of_pos k (by norm_num))

/-- C15. init resets the buffer: for every capacity `2 ^ k` that fits `size_t`,
every prior control block and slot array and every pattern,
`ring_buffer_init` returns with `buffer_mask = capacity - 1`, both indices 0
and the status byte equal to `RING_BUFFER_INIT_STATUS`, which is 1;
`ring_buffer_is_empty` is then true, and the slot array is as it was. -/
theorem C15_init_resets (b0 : ring_buffer_t) (k pattern : Nat) (hk : k < 64) :
    ∃ rb, ring_buffer_init b0 (2 ^ k) pattern = .ok rb ∧
      rb.ctrl.buffer_mask = 2 ^ k - 1 ∧ rb.ctrl.head_index = 0 ∧ rb.ctrl.tail_index = 0 ∧
      RING_BUFFER_CTRL_GET_STATUS rb = RING_BUFFER_INIT_STATUS ∧
      RING_BUFFER_INIT_STATUS = 1 ∧ ring_buffer_is_empty rb = true ∧
      rb.buffer = b0.buffer := by
  have hcap := two_pow_lt_size hk
  have hpos : 0 < 2 ^ k := Nat.pos_pow_of_pos k (by norm_num)
  unfold ring_buffer_init
  rw [if_pos (is_power_of_two_pow hk)]
  refine ⟨_, rfl, ?_, rfl, rfl, ?_, rfl, rfl, rfl⟩
  · show size_sub (2 ^ k) 1 = 2 ^ k - 1
    exact size_sub_eq_of_le (by omega) (by omega)
  · unfold RING_BUFFER_CTRL_GET_STATUS RING_BUFFER_CTRL_SET_STATUS RING_BUFFER_INIT_STATUS
    exact status_after_set _ 1 (by norm_num)

/-- C15 on a control block left over from an earlier use (control word
`0xDEADBEEF`, mask 99, indices 4 and 5), initialised with capacity 32. -/
theorem C15_init_resets_witness :
    (5 < 64) ∧
      ∃ rb, ring_buffer_init ⟨⟨0xDEADBEEF, 99, 4, 5⟩, List.replicate 32 7⟩ (2 ^ 5) 0xAB
          = .ok rb ∧
        rb.ctrl.buffer_mask = 2 ^ 5 - 1 ∧ rb.ctrl.head_index = 0 ∧
        rb.ctrl.tail_index = 0 ∧
        RING_BUFFER_CTRL_GET_STATUS rb = RING_BUFFER_INIT_STATUS ∧
        RING_BUFFER_INIT_STATUS = 1 ∧ ring_buffer_is_empty rb = true ∧
        rb.buffer = (⟨⟨0xDEADBEEF, 99, 4, 5⟩, List.replicate 32 7⟩ : ring_buffer_t).buffer :=
  ⟨by decide, C15_init_resets _ 5 0xAB (by decide)⟩

/-- C16, evaluated: on an initialised buffer of capacity 8 whose slots hold
`1 .. 8`, `ring_buffer_deinit` zeroes the mask, both indices and sets the
status byte to `RING_BUFFER_DEINIT_STATUS` (2), but clears only the first 7
slots: the last slot still holds 8. -/
theorem C16_deinit_leaves_last_slot :
    ring_buffer_deinit ⟨⟨1, 7, 2, 5⟩, [1, 2, 3, 4, 5, 6, 7, 8]⟩
        = .ok ⟨⟨2, 0, 0, 0⟩, [0, 0, 0, 0, 0, 0, 0, 8]⟩ ∧
      RING_BUFFER_CTRL_GET_STATUS ⟨⟨2, 0, 0, 0⟩, [0, 0, 0, 0, 0, 0, 0, 8]⟩
        = RING_BUFFER_DEINIT_STATUS := by
  decide

/-- C17. Bulk-only FIFO below the limit: on a buffer initialised with capacity
`2 ^ k >= 2` (so in particular `>= 4`), every sequence of
`ring_buffer_memcpy` and `ring_buffer_read_memcpy` calls in which the number
of written-but-unread bytes is strictly below `capacity_mask` after every write
runs without fault and hands back what the FIFO model hands back: an accepted
write returns its length, a write that does not fit returns 0, a read returns
`min(len, unread)` and delivers the oldest unread bytes in order; hence the
concatenation of all bytes read is a prefix of the concatenation of all bytes
written. -/
theorem C17_bulk_only_fifo (b0 : ring_buffer_t) (k pattern : Nat) (ops : List BulkOp)
    (hk1 : 1 ≤ k) (hk : k < 64) (hlen : b0.buffer.length = 2 ^ k)
    (hbelow : bulk_below (2 ^ k - 1) 0 ops = true) :
    ∃ rb rb', ring_buffer_init b0 (2 ^ k) pattern = .ok rb ∧
      run_bulk_ops rb ops = .ok (rb', bulk_model (2 ^ k - 1) [] ops) ∧
      bytes_read (bulk_model (2 ^ k - 1) [] ops)
        <+: bytes_written ops (bulk_model (2 ^ k - 1) [] ops) := by
  obtain ⟨rb, hinit, wf, hh, ht, _⟩ := init_wf b0 pattern hk hlen
  have he : rb.ctrl.head_index = rb.ctrl.tail_index := by rw [hh, ht]
  have hm : 0 < rb.ctrl.buffer_mask := by
    have := bulk_count_lt wf hk1
    omega
  have hc : bulk_count rb = 0 := bulk_count_of_empty rb he hm
  have hcont : bulk_contents rb = [] := by
    unfold bulk_contents
    rw [hc]
    rfl
  obtain ⟨rb', hrun, _⟩ := run_bulk_ops_sim hk1 ops rb wf (by rw [hc]; exact hbelow)
  rw [hcont] at hrun
  refine ⟨rb, rb', hinit, hrun, ?_⟩
  have hcons := bulk_model_conserves (2 ^ k - 1) ops []
  rw [List.nil_append] at hcons
  exact ⟨_, hcons.symm⟩

/-- C17 at capacity 8 on a run that wraps, with one write that does not fit. -/
theorem C17_bulk_only_fifo_witness :
    (1 ≤ 3 ∧ 3 < 64 ∧ fresh8.buffer.length = 2 ^ 3 ∧
        bulk_below (2 ^ 3 - 1) 0 bulk_ops_example = true) ∧
      bulk_model (2 ^ 3 - 1) [] bulk_ops_example
        = [BulkOut.wrote 5, BulkOut.got 4 [1, 2, 3, 4], BulkOut.wrote 4, BulkOut.wrote 0,
            BulkOut.got 5 [5, 6, 7, 8, 9, 0], BulkOut.got 0 [0]] ∧
      ∃ rb rb', ring_buffer_init fresh8 (2 ^ 3) 0 = .ok rb ∧
        run_bulk_ops rb bulk_ops_example
          = .ok (rb', bulk_model (2 ^ 3 - 1) [] bulk_ops_example) ∧
        bytes_read (bulk_model (2 ^ 3 - 1) [] bulk_ops_example)
          <+: bytes_written bulk_ops_example (bulk_model (2 ^ 3 - 1) [] bulk_ops_example) :=
  ⟨by decide, by decide,
    C17_bulk_only_fifo fresh8 3 0 bulk_ops_example (by decide) (by decide) (by decide)
      (by decide)⟩

/-- C18, evaluated: capacity 8, empty state with both indices at 5, payload
`1, 2, 3, 4, 5` (`N = 5 < capacity_mask`).  After `ring_buffer_memcpy` has
returned 5, six successive `ring_buffer_dequeue` calls succeed, not five, and
the third of them returns the old content of slot 7 (97) in the middle of the
payload; the seventh finds the buffer empty. -/
theorem C18_bulk_write_then_dequeue :
    (do
      let w ← ring_buffer_memcpy at5 [1, 2, 3, 4, 5] 5
      let r ← run_byte_ops w.1 (List.replicate 7 ByteOp.dequeue)
      pure (w.2, r.2))
      = .ok (5, [(1, 1), (1, 2), (1, 97), (1, 3), (1, 4), (1, 5), (0, 0)]) := by
  decide

/-- C19. Overflow empties the buffer.  First part: on every full state
(capacity `2 ^ k >= 2`, indices in range) one further `ring_buffer_queue` call
returns with `head_index == tail_index`, so `ring_buffer_is_empty` is true and
the next `ring_buffer_dequeue` returns 0 and hands out nothing.  Second part:
after `ring_buffer_init` with capacity `2 ^ k >= 2`, enqueueing exactly
`2 * capacity` bytes with no dequeue in between leaves `ring_buffer_is_empty`
true. -/
theorem C19_overflow_empties_buffer :
    (∀ (rb : ring_buffer_t) (k v d : Nat), WF rb k → 1 ≤ k →
        ring_buffer_is_full rb = true →
        ∃ rb', ring_buffer_queue rb v = .ok rb' ∧
          rb'.ctrl.head_index = rb'.ctrl.tail_index ∧
          ring_buffer_is_empty rb' = true ∧
          ring_buffer_dequeue rb' d = .ok (rb', d, 0)) ∧
    (∀ (b0 : ring_buffer_t) (k pattern : Nat) (vs : List Nat), 1 ≤ k → k < 64 →
        b0.buffer.length = 2 ^ k → vs.length = 2 * 2 ^ k →
        ∃ rb rb', ring_buffer_init b0 (2 ^ k) pattern = .ok rb ∧
          run_byte_ops rb (vs.map ByteOp.queue) = .ok (rb', []) ∧
          ring_buffer_is_empty rb' = true) := by
  constructor
  · intro rb k v d wf hk1 hfull
    have hs := (full_head_succ wf hk1 hfull).1
    refine ⟨_, queue_eq wf v, hs, ?_, dequeue_empty _ d hs⟩
    unfold ring_buffer_is_empty
    simp [hs]
  · intro b0 k pattern vs _ hk hlen hvs
    obtain ⟨rb, hinit, wf, hh, ht, _⟩ := init_wf b0 pattern hk hlen
    obtain ⟨rb', hrun, _, ht', hh'⟩ := run_queues_eq vs rb wf
    refine ⟨rb, rb', hinit, hrun, ?_⟩
    unfold ring_buffer_is_empty
    rw [hh', ht', hh, ht, hvs, Nat.zero_add, Nat.mul_mod_left]
    rfl

/-- C19 on the full state of capacity 8, and on the producer example: 64 bytes
`0 .. 63` into a buffer of capacity 32. -/
theorem C19_overflow_empties_buffer_witness :
    ((WF full8 3 ∧ 1 ≤ 3 ∧ ring_buffer_is_full full8 = true) ∧
      ∃ rb', ring_buffer_queue full8 99 = .ok rb' ∧
        rb'.ctrl.head_index = rb'.ctrl.tail_index ∧
        ring_buffer_is_empty rb' = true ∧
        ring_buffer_dequeue rb' 0 = .ok (rb', 0, 0)) ∧
    ((1 ≤ 5 ∧ 5 < 64 ∧ fresh32.buffer.length = 2 ^ 5 ∧ (List.range 64).length = 2 * 2 ^ 5) ∧
      ∃ rb rb', ring_buffer_init fresh32 (2 ^ 5) 0 = .ok rb ∧
        run_byte_ops rb ((List.range 64).map ByteOp.queue) = .ok (rb', []) ∧
        ring_buffer_is_empty rb' = true) :=
  ⟨⟨by decide,
      C19_overflow_empties_buffer.1 full8 3 99 0 (by decide) (by decide) (by decide)⟩,
    ⟨by decide,
      C19_overflow_empties_buffer.2 fresh32 5 0 (List.range 64) (by decide) (by decide)
        (by decide) (by decide)⟩⟩

/-- C20. In-bounds access: from `ring_buffer_init` with capacity `2 ^ k >= 2`
over a slot array of `capacity` bytes, any sequence of the engine's operations
(byte-wise and bulk, in any mix), each given a payload of exactly `size` bytes
or a destination of exactly `len` bytes, either returns, and then both indices
are in `0 .. capacity_mask` (so `capacity_mask - index` does not underflow) and
the slot array still has `capacity_mask + 1` bytes, or ends in the busy-wait of
`ring_buffer_read_memload_wait` that never returns.  No run ends in an access
outside the slot array, the payload or the destination, nor in a division by
zero, a signed overflow or a failed assertion. -/
theorem C20_in_bounds_access (b0 : ring_buffer_t) (k pattern : Nat) (ops : List EngineOp)
    (hk1 : 1 ≤ k) (hk : k < 64) (hlen : b0.buffer.length = 2 ^ k) :
    ∃ rb, ring_buffer_init b0 (2 ^ k) pattern = .ok rb ∧
      ((∃ rb', run_engine_ops rb ops = .ok rb' ∧
          rb'.ctrl.buffer_mask = 2 ^ k - 1 ∧
          rb'.ctrl.head_index ≤ rb'.ctrl.buffer_mask ∧
          rb'.ctrl.tail_index ≤ rb'.ctrl.buffer_mask ∧
          rb'.buffer.length = rb'.ctrl.buffer_mask + 1) ∨
        run_engine_ops rb ops = .error Fault.spins) ∧
      run_engine_ops rb ops ≠ .error Fault.out_of_bounds ∧
      run_engine_ops rb ops ≠ .error Fault.div_by_zero ∧
      run_engine_ops rb ops ≠ .error Fault.signed_overflow ∧
      run_engine_ops rb ops ≠ .error Fault.assert_failed := by
  obtain ⟨rb, hinit, wf, _, _, _⟩ := init_wf b0 pattern hk hlen
  refine ⟨rb, hinit, ?_⟩
  rcases run_engine_ops_safe hk1 ops rb wf with ⟨rb', hrun, wf'⟩ | hrun
  · have hms := wf'.mask_succ
    obtain ⟨_, hmask, hh, ht, hl⟩ := wf'
    refine ⟨Or.inl ⟨rb', hrun, hmask, by omega, by omega, by omega⟩, ?_, ?_, ?_, ?_⟩ <;>
    · rw [hrun]
      intro h
      cases h
  · refine ⟨Or.inr hrun, ?_, ?_, ?_, ?_⟩ <;>
    · rw [hrun]
      intro h
      cases h

/-- C20 at capacity 8 on a run that mixes all nine operations and wraps both
indices: it returns with head 2 and tail 1. -/
theorem C20_in_bounds_access_witness :
    (1 ≤ 3 ∧ 3 < 64 ∧ fresh8.buffer.length = 2 ^ 3) ∧
      (do
        let rb ← ring_buffer_init fresh8 (2 ^ 3) 0
        let r ← run_engine_ops rb engine_ops_example
        pure (r.ctrl.head_index, r.ctrl.tail_index, r.buffer.length)) = .ok (2, 1, 8) ∧
      ∃ rb, ring_buffer_init fresh8 (2 ^ 3) 0 = .ok rb ∧
        ((∃ rb', run_engine_ops rb engine_ops_example = .ok rb' ∧
            rb'.ctrl.buffer_mask = 2 ^ 3 - 1 ∧
            rb'.ctrl.head_index ≤ rb'.ctrl.buffer_mask ∧
            rb'.ctrl.tail_index ≤ rb'.ctrl.buffer_mask ∧
            rb'.buffer.length = rb'.ctrl.buffer_mask + 1) ∨
          run_engine_ops rb engine_ops_example = .error Fault.spins) ∧
        run_engine_ops rb engine_ops_example ≠ .error Fault.out_of_bounds ∧
        run_engine_ops rb engine_ops_example ≠ .error Fault.div_by_zero ∧
        run_engine_ops rb engine_ops_example ≠ .error Fault.signed_overflow ∧
        run_engine_ops rb engine_ops_example ≠ .error Fault.assert_failed :=
  ⟨by decide, by decide,
    C20_in_bounds_access fresh8 3 0 engine_ops_example (by decide) (by decide) (by decide)⟩

end RingBuffer
